import Mathlib

set_option linter.unusedVariables false
set_option linter.unreachableTactic false
set_option linter.unusedTactic false
set_option maxHeartbeats 1000000

namespace Slog

/-- Byte list of an ASCII string literal (every character below 0x80, so the
code points are the bytes). Used to transcribe the source's string constants. -/
def ascii (s : String) : List Nat := s.data.map (fun c => c.toNat)

/-- Modelled from the spec: the `safeSet` table used by
`appendEscapedJSONString` and `needsQuoting` is referenced by the source but
defined outside `src/`.  Per the spec (4.5) it is the standard JSON safe set:
an ASCII byte is safe unless it is in the control range below 0x20, the double
quote, or the backslash. -/
def safeSet (b : Nat) : Bool := 0x20 ≤ b && b ≠ 0x22 && b ≠ 0x5C

/-- The `hex` table "0123456789abcdef" of the source, as a function from a
nibble to the byte of its lower-case hex digit. -/
def hexDig (n : Nat) : Nat := if n < 10 then 0x30 + n else 0x57 + n

/-- Go's `utf8.DecodeRuneInString`, over a byte list.  Returns the decoded
code point and the number of bytes consumed; on an invalid encoding it
returns (0xFFFD, 1), on empty input (0xFFFD, 0).  Bit masks of the Go source
are written with `%` (x & 0x3F = x % 0x40 and so on) so that `omega` can
reason about them. -/
def decodeRuneInString : List Nat → Nat × Nat
  | [] => (0xFFFD, 0)
  | b0 :: rest =>
    if b0 < 0x80 then (b0, 1)
    else if b0 < 0xC2 then (0xFFFD, 1)
    else if b0 < 0xE0 then
      match rest with
      | b1 :: _ =>
        if 0x80 ≤ b1 ∧ b1 ≤ 0xBF then ((b0 % 0x20) * 0x40 + b1 % 0x40, 2)
        else (0xFFFD, 1)
      | [] => (0xFFFD, 1)
    else if b0 < 0xF0 then
      match rest with
      | b1 :: b2 :: _ =>
        if (if b0 = 0xE0 then 0xA0 else 0x80) ≤ b1 ∧ b1 ≤ (if b0 = 0xED then 0x9F else 0xBF) then
          if 0x80 ≤ b2 ∧ b2 ≤ 0xBF then
            ((b0 % 0x10) * 0x1000 + (b1 % 0x40) * 0x40 + b2 % 0x40, 3)
          else (0xFFFD, 1)
        else (0xFFFD, 1)
      | _ => (0xFFFD, 1)
    else if b0 < 0xF5 then
      match rest with
      | b1 :: b2 :: b3 :: _ =>
        if (if b0 = 0xF0 then 0x90 else 0x80) ≤ b1 ∧ b1 ≤ (if b0 = 0xF4 then 0x8F else 0xBF) then
          if 0x80 ≤ b2 ∧ b2 ≤ 0xBF then
            if 0x80 ≤ b3 ∧ b3 ≤ 0xBF then
              ((b0 % 0x8) * 0x40000 + (b1 % 0x40) * 0x1000 + (b2 % 0x40) * 0x40 + b3 % 0x40, 4)
            else (0xFFFD, 1)
          else (0xFFFD, 1)
        else (0xFFFD, 1)
      | _ => (0xFFFD, 1)
    else (0xFFFD, 1)

/-- The escape bytes the source's switch emits for an unsafe ASCII byte:
a short escape for backslash, quote, newline, carriage return and tab, and
a `\u00XX` escape otherwise. -/
def escASCII (b : Nat) : List Nat :=
  if b = 0x5C ∨ b = 0x22 then [0x5C, b]
  else if b = 0x0A then [0x5C, 0x6E]
  else if b = 0x0D then [0x5C, 0x72]
  else if b = 0x09 then [0x5C, 0x74]
  else [0x5C, 0x75, 0x30, 0x30, hexDig (b / 0x10), hexDig (b % 0x10)]

/-- The bytes of the replacement escape string `�`. -/
def uFFFD : List Nat := [0x5C, 0x75, 0x66, 0x66, 0x66, 0x64]

/-- The bytes the source emits for U+2028 / U+2029: `\u202` followed by the
hex digit of `c % 16`. -/
def u202x (c : Nat) : List Nat := [0x5C, 0x75, 0x32, 0x30, 0x32, hexDig (c % 0x10)]

/-- The byte run `s[a:b]` of a Go string. -/
def sliceStr (s : List Nat) (a b : Nat) : List Nat := (s.drop a).take (b - a)

theorem decodeRuneInString_size_pos (b0 : Nat) (rest : List Nat) :
    1 ≤ (decodeRuneInString (b0 :: rest)).2 := by
  rcases rest with _ | ⟨b1, rest⟩ <;> try rcases rest with _ | ⟨b2, rest⟩ <;>
    try rcases rest with _ | ⟨b3, rest⟩
  all_goals
    simp only [decodeRuneInString]
    repeat' split
  all_goals simp

theorem decodeRuneInString_pos (s : List Nat) (h : s ≠ []) :
    1 ≤ (decodeRuneInString s).2 := by
  cases s with
  | nil => exact absurd rfl h
  | cons b0 rest => exact decodeRuneInString_size_pos b0 rest

theorem decodeRuneInString_size_le (s : List Nat) :
    (decodeRuneInString s).2 ≤ s.length := by
  rcases s with _ | ⟨b0, rest⟩
  · simp [decodeRuneInString]
  rcases rest with _ | ⟨b1, rest⟩ <;> try rcases rest with _ | ⟨b2, rest⟩ <;>
    try rcases rest with _ | ⟨b3, rest⟩
  all_goals
    simp only [decodeRuneInString]
    repeat' split
  all_goals simp

/-- `appendEscapedJSONString`'s loop from the source, with the loop state
(`i`, `start`, the bytes appended so far) explicit: `i` scans the input,
`start` marks the beginning of the pending run of safe bytes, and pending
runs are flushed verbatim before each escape and at the end. -/
def escGo (s : List Nat) (i start : Nat) (buf : List Nat) : List Nat :=
  if hlt : i < s.length then
    let b := s.getD i 0
    if b < 0x80 then
      if safeSet b then escGo s (i + 1) start buf
      else
        let buf1 := if start < i then buf ++ sliceStr s start i else buf
        escGo s (i + 1) (i + 1) (buf1 ++ escASCII b)
    else
      let cs := decodeRuneInString (s.drop i)
      if cs.1 = 0xFFFD ∧ cs.2 = 1 then
        let buf1 := if start < i then buf ++ sliceStr s start i else buf
        escGo s (i + cs.2) (i + cs.2) (buf1 ++ uFFFD)
      else if cs.1 = 0x2028 ∨ cs.1 = 0x2029 then
        let buf1 := if start < i then buf ++ sliceStr s start i else buf
        escGo s (i + cs.2) (i + cs.2) (buf1 ++ u202x cs.1)
      else escGo s (i + cs.2) start buf
  else
    if start < s.length then buf ++ sliceStr s start s.length else buf
termination_by s.length - i
decreasing_by
  all_goals
    first
      | omega
      | (have h1 : s.drop i ≠ [] := by
           intro h
           have h2 := congrArg List.length h
           simp at h2
           omega
         have h3 := decodeRuneInString_pos (s.drop i) h1
         omega)

/-- `appendEscapedJSONString` from `src/json_builder.go` (also part_004):
append the JSON-escaped form of `s` to `buf`. -/
def appendEscapedJSONString (buf s : List Nat) : List Nat := escGo s 0 0 buf

/-- Follows the spec's words (4.5 and claim C3): scan the input by rune; a
safe-set ASCII byte passes verbatim; an unsafe ASCII byte becomes its short
escape or `\u00XX`; an invalid UTF-8 byte becomes `�`; U+2028/U+2029
become ` `/` `; every other rune's bytes pass verbatim. -/
def escaperSpec (s : List Nat) : List Nat :=
  match s with
  | [] => []
  | b :: rest =>
    if b < 0x80 then
      (if safeSet b then [b] else escASCII b) ++ escaperSpec rest
    else
      let cs := decodeRuneInString (b :: rest)
      if cs.1 = 0xFFFD ∧ cs.2 = 1 then uFFFD ++ escaperSpec rest
      else if cs.1 = 0x2028 ∨ cs.1 = 0x2029 then
        u202x cs.1 ++ escaperSpec (rest.drop (cs.2 - 1))
      else (b :: rest).take cs.2 ++ escaperSpec (rest.drop (cs.2 - 1))
termination_by s.length
decreasing_by all_goals (first | omega | (simp; omega) | simp)

/-- Whether a byte string is valid UTF-8 under Go's decoder: scanning by
rune never hits an invalid encoding. -/
def validUTF8 (s : List Nat) : Bool :=
  match s with
  | [] => true
  | b :: rest =>
    if b < 0x80 then validUTF8 rest
    else
      let cs := decodeRuneInString (b :: rest)
      if cs.1 = 0xFFFD && cs.2 = 1 then false
      else validUTF8 (rest.drop (cs.2 - 1))
termination_by s.length
decreasing_by all_goals (first | omega | (simp; omega) | simp)

/-- UTF-8 encoding of a code point, as used by a standard JSON string decoder
to materialise a `\uXXXX` escape. -/
def utf8Encode (c : Nat) : List Nat :=
  if c < 0x80 then [c]
  else if c < 0x800 then [0xC0 + c / 0x40, 0x80 + c % 0x40]
  else if c < 0x10000 then
    [0xE0 + c / 0x1000, 0x80 + (c / 0x40) % 0x40, 0x80 + c % 0x40]
  else
    [0xF0 + c / 0x40000, 0x80 + (c / 0x1000) % 0x40, 0x80 + (c / 0x40) % 0x40,
      0x80 + c % 0x40]

/-- Value of one hex digit byte, as read by a standard JSON string decoder. -/
def hexVal (d : Nat) : Option Nat :=
  if 0x30 ≤ d ∧ d ≤ 0x39 then some (d - 0x30)
  else if 0x41 ≤ d ∧ d ≤ 0x46 then some (d - 0x37)
  else if 0x61 ≤ d ∧ d ≤ 0x66 then some (d - 0x57)
  else none

/-- Value of a four-digit hex escape payload. -/
def hex4 (a b c d : Nat) : Option Nat :=
  match hexVal a, hexVal b, hexVal c, hexVal d with
  | some x, some y, some z, some w => some (x * 0x1000 + y * 0x100 + z * 0x10 + w)
  | _, _, _, _ => none

/-- The two-character escapes a standard JSON string decoder accepts after a
backslash (besides `\u`). -/
def escChar (e : Nat) : Option Nat :=
  if e = 0x22 then some 0x22
  else if e = 0x5C then some 0x5C
  else if e = 0x2F then some 0x2F
  else if e = 0x62 then some 0x08
  else if e = 0x66 then some 0x0C
  else if e = 0x6E then some 0x0A
  else if e = 0x72 then some 0x0D
  else if e = 0x74 then some 0x09
  else none

mutual

/-- Body of a standard (RFC 8259) JSON string decoder: reads the bytes
between the quotes up to the closing quote, which must end the token;
rejects raw control bytes and malformed escapes; materialises `\uXXXX`
escapes (including surrogate pairs, via `decodeEsc` and `decodeUEsc`) as
the UTF-8 bytes of the code point.  Returns the decoded byte string. -/
def decodeBody : List Nat → Option (List Nat)
  | [] => none
  | b :: rest =>
    if b = 0x22 then if rest.isEmpty then some [] else none
    else if b = 0x5C then decodeEsc rest
    else if b < 0x20 then none
    else (decodeBody rest).map (b :: ·)
termination_by l => (l.length, 0)
decreasing_by all_goals (first | (simp [Prod.lex_def]; omega) | simp [Prod.lex_def] | omega)

/-- Decoder state after a backslash. -/
def decodeEsc : List Nat → Option (List Nat)
  | [] => none
  | e :: r2 =>
    if e = 0x75 then
      match r2 with
      | h1 :: h2 :: h3 :: h4 :: r3 => decodeUEsc (hex4 h1 h2 h3 h4) r3
      | _ => none
    else
      match escChar e with
      | some ch => (decodeBody r2).map (ch :: ·)
      | none => none
termination_by l => (l.length, 1)
decreasing_by all_goals (first | (simp [Prod.lex_def]; omega) | simp [Prod.lex_def] | omega)

/-- Decoder state after a `\uXXXX` escape whose payload is the first
argument: a high surrogate must be followed by a `\uXXXX` low surrogate,
a lone low surrogate is rejected, anything else is materialised. -/
def decodeUEsc : Option Nat → List Nat → Option (List Nat)
  | none, _ => none
  | some cp, r3 =>
    if 0xD800 ≤ cp ∧ cp ≤ 0xDBFF then
      match r3 with
      | e2 :: e3 :: g1 :: g2 :: g3 :: g4 :: r4 =>
        if e2 = 0x5C ∧ e3 = 0x75 then
          match hex4 g1 g2 g3 g4 with
          | some cp2 =>
            if 0xDC00 ≤ cp2 ∧ cp2 ≤ 0xDFFF then
              (decodeBody r4).map
                (utf8Encode (0x10000 + (cp - 0xD800) * 0x400 + (cp2 - 0xDC00)) ++ ·)
            else none
          | none => none
        else none
      | _ => none
    else if 0xDC00 ≤ cp ∧ cp ≤ 0xDFFF then none
    else (decodeBody r3).map (utf8Encode cp ++ ·)
termination_by o l => (l.length, 2)
decreasing_by all_goals (first | (simp [Prod.lex_def]; omega) | simp [Prod.lex_def] | omega)

end

/-- A standard JSON string decoder over a whole string token: an opening
quote, the body, and a closing quote ending the input. -/
def jsonDecodeString (l : List Nat) : Option (List Nat) :=
  match l with
  | b :: rest => if b = 0x22 then decodeBody rest else none
  | [] => none

theorem sliceStr_self (s : List Nat) (i : Nat) : sliceStr s i i = [] := by
  simp [sliceStr]

theorem sliceStr_concat (s : List Nat) (a b c : Nat) (h1 : a ≤ b) (h2 : b ≤ c) :
    sliceStr s a c = sliceStr s a b ++ sliceStr s b c := by
  unfold sliceStr
  have hc : c - a = (b - a) + (c - b) := by omega
  rw [hc, List.take_add]
  congr 1
  rw [List.drop_drop]
  have hb : a + (b - a) = b := by omega
  rw [hb]

theorem drop_cons_self (s : List Nat) (i : Nat) (h : i < s.length) :
    s.drop i = s.getD i 0 :: s.drop (i + 1) := by
  induction s generalizing i with
  | nil => simp at h
  | cons x t ih =>
    cases i with
    | zero => simp
    | succ j =>
      simp only [List.drop_succ_cons, List.getD_cons_succ]
      simp at h
      exact ih j (by omega)

theorem sliceStr_succ (s : List Nat) (a i : Nat) (ha : a ≤ i) (hi : i < s.length) :
    sliceStr s a (i + 1) = sliceStr s a i ++ [s.getD i 0] := by
  rw [sliceStr_concat s a i (i + 1) ha (by omega)]
  congr 1
  unfold sliceStr
  have h1 : i + 1 - i = 1 := by omega
  rw [h1, drop_cons_self s i hi]
  simp

theorem flush_eq (s : List Nat) (a i : Nat) (buf : List Nat) (h : a ≤ i) :
    (if a < i then buf ++ sliceStr s a i else buf) = buf ++ sliceStr s a i := by
  split
  · rfl
  · have : a = i := by omega
    subst this
    simp [sliceStr_self]

theorem escGo_eq_aux (n : Nat) :
    ∀ (s : List Nat) (i start : Nat) (buf : List Nat),
      s.length - i ≤ n → start ≤ i → i ≤ s.length →
      escGo s i start buf = buf ++ sliceStr s start i ++ escaperSpec (s.drop i) := by
  induction n with
  | zero =>
    intro s i start buf hn hsi hil
    have hi : i = s.length := by omega
    have hd2 : s.drop i = [] := by
      rw [hi]
      exact List.drop_length s
    rw [escGo]
    rw [dif_neg (by omega)]
    rw [hd2, hi]
    rw [flush_eq s start s.length buf (by omega)]
    simp [escaperSpec]
  | succ n ih =>
    intro s i start buf hn hsi hil
    by_cases hlt : i < s.length
    case neg =>
      have hi : i = s.length := by omega
      have hd2 : s.drop i = [] := by
        rw [hi]
        exact List.drop_length s
      rw [escGo]
      rw [dif_neg (by omega)]
      rw [hd2, hi]
      rw [flush_eq s start s.length buf (by omega)]
      simp [escaperSpec]
    case pos =>
      have hdrop : s.drop i = s.getD i 0 :: s.drop (i + 1) := drop_cons_self s i hlt
      rw [escGo]
      rw [dif_pos hlt]
      simp only []
      by_cases hb : s.getD i 0 < 0x80
      case pos =>
        rw [if_pos hb]
        by_cases hsafe : safeSet (s.getD i 0) = true
        case pos =>
          rw [if_pos hsafe]
          rw [ih s (i + 1) start buf (by omega) (by omega) (by omega)]
          rw [sliceStr_succ s start i hsi hlt]
          rw [hdrop, escaperSpec]
          rw [if_pos hb, if_pos hsafe]
          simp
        case neg =>
          rw [if_neg hsafe]
          rw [ih s (i + 1) (i + 1) _ (by omega) (by omega) (by omega)]
          rw [flush_eq s start i buf hsi]
          rw [sliceStr_self]
          rw [hdrop, escaperSpec]
          rw [if_pos hb, if_neg hsafe]
          simp
      case neg =>
        rw [if_neg hb]
        rcases hcs : decodeRuneInString (s.drop i) with ⟨c, sz⟩
        have hsz1 : 1 ≤ sz := by
          have h1 : s.drop i ≠ [] := by
            rw [hdrop]; simp
          have h2 := decodeRuneInString_pos (s.drop i) h1
          rw [hcs] at h2
          exact h2
        have hszle : sz ≤ s.length - i := by
          have h2 := decodeRuneInString_size_le (s.drop i)
          rw [hcs] at h2
          simpa using h2
        simp only [hcs]
        by_cases herr : c = 0xFFFD ∧ sz = 1
        case pos =>
          rw [if_pos herr]
          rw [ih s (i + sz) (i + sz) _ (by omega) (by omega) (by omega)]
          rw [flush_eq s start i buf hsi]
          rw [sliceStr_self]
          rw [hdrop, escaperSpec]
          rw [if_neg (by omega)]
          rw [← hdrop, hcs]
          rw [if_pos herr]
          have hsz : sz = 1 := herr.2
          subst hsz
          simp
        case neg =>
          rw [if_neg herr]
          by_cases hsep : c = 0x2028 ∨ c = 0x2029
          case pos =>
            rw [if_pos hsep]
            rw [ih s (i + sz) (i + sz) _ (by omega) (by omega) (by omega)]
            rw [flush_eq s start i buf hsi]
            rw [sliceStr_self]
            rw [hdrop, escaperSpec]
            rw [if_neg (by omega)]
            rw [← hdrop, hcs]
            rw [if_neg herr, if_pos hsep]
            have hdd : (s.drop (i + 1)).drop (sz - 1) = s.drop (i + sz) := by
              rw [List.drop_drop]
              congr 1
              omega
            rw [hdd]
            simp
          case neg =>
            rw [if_neg hsep]
            rw [ih s (i + sz) start buf (by omega) (by omega) (by omega)]
            rw [hdrop, escaperSpec]
            rw [if_neg (by omega)]
            rw [← hdrop, hcs]
            rw [if_neg herr, if_neg hsep]
            have hdd : (s.drop (i + 1)).drop (sz - 1) = s.drop (i + sz) := by
              rw [List.drop_drop]
              congr 1
              omega
            rw [hdd]
            have hsl : sliceStr s start (i + sz) = sliceStr s start i ++ sliceStr s i (i + sz) := by
              exact sliceStr_concat s start i (i + sz) hsi (by omega)
            rw [hsl]
            have htk : sliceStr s i (i + sz) = (s.drop i).take sz := by
              unfold sliceStr
              congr 1
              omega
            rw [htk, hdrop]
            simp

/-- `appendEscapedJSONString` computes exactly the per-rune escaping
`escaperSpec` (the run-copying loop is equivalent to unit-by-unit output). -/
theorem appendEscapedJSONString_eq (buf s : List Nat) :
    appendEscapedJSONString buf s = buf ++ escaperSpec s := by
  unfold appendEscapedJSONString
  rw [escGo_eq_aux s.length s 0 0 buf (by omega) (by omega) (by omega)]
  simp [sliceStr_self]

/-- Facts about a successful multi-byte decode: the code point is in range,
not a surrogate, its UTF-8 encoding is exactly the consumed bytes, and every
consumed byte is a high byte (hence passes a JSON string decoder verbatim). -/
theorem decodeRune_valid (b0 : Nat) (rest : List Nat) (c sz : Nat)
    (hb : 0x80 ≤ b0) (hr : decodeRuneInString (b0 :: rest) = (c, sz))
    (hne : ¬(c = 0xFFFD ∧ sz = 1)) :
    0x80 ≤ c ∧ c < 0x110000 ∧ ¬(0xD800 ≤ c ∧ c ≤ 0xDFFF) ∧
    2 ≤ sz ∧ sz ≤ 4 ∧
    utf8Encode c = (b0 :: rest).take sz ∧
    (∀ x ∈ (b0 :: rest).take sz, 0x80 ≤ x ∧ x ≤ 0xF4) := by
  rcases rest with _ | ⟨b1, rest⟩ <;> try rcases rest with _ | ⟨b2, rest⟩ <;>
    try rcases rest with _ | ⟨b3, rest⟩
  all_goals
    simp only [decodeRuneInString] at hr
    rw [if_neg (by omega)] at hr
  all_goals repeat' split at hr
  all_goals
    rw [Prod.mk.injEq] at hr
    obtain ⟨hc, hsz⟩ := hr
    subst hc
    subst hsz
    try simp at hne
  -- remaining goals: the successful 2-, 3- and 4-byte decodes
  all_goals
    refine ⟨by omega, by omega, by omega, by omega, by omega, ?_, ?_⟩
  all_goals try (
    unfold utf8Encode
    first
      | rw [if_pos (by omega)]
      | rw [if_neg (by omega), if_pos (by omega)]
      | rw [if_neg (by omega), if_neg (by omega), if_pos (by omega)]
      | rw [if_neg (by omega), if_neg (by omega), if_neg (by omega)])
  all_goals simp
  all_goals try omega

theorem hexVal_hexDig (x : Nat) (h : x < 16) : hexVal (hexDig x) = some x := by
  unfold hexVal hexDig
  split_ifs <;> first | omega | (congr 1; omega)

/-- A run of plain bytes (no quote, no backslash, no control byte) passes a
JSON string decoder verbatim. -/
theorem decodeBody_chunk (chunk : List Nat)
    (h : ∀ x ∈ chunk, 0x20 ≤ x ∧ x ≠ 0x22 ∧ x ≠ 0x5C) (t : List Nat) :
    decodeBody (chunk ++ t) = (decodeBody t).map (chunk ++ ·) := by
  induction chunk with
  | nil =>
    rw [List.nil_append]
    cases decodeBody t <;> simp
  | cons b rest ih =>
    have hb := h b (List.mem_cons_self b rest)
    have hrest : ∀ x ∈ rest, 0x20 ≤ x ∧ x ≠ 0x22 ∧ x ≠ 0x5C := by
      intro x hx
      exact h x (List.mem_cons_of_mem b hx)
    rw [List.cons_append, decodeBody]
    rw [if_neg hb.2.1, if_neg hb.2.2, if_neg (by omega)]
    rw [ih hrest]
    cases decodeBody t <;> simp

theorem not_safeSet_cases (b : Nat) (hb : b < 0x80) (h : ¬ safeSet b = true) :
    b < 0x20 ∨ b = 0x22 ∨ b = 0x5C := by
  unfold safeSet at h
  simp at h
  omega

theorem safeSet_facts (b : Nat) (h : safeSet b = true) :
    0x20 ≤ b ∧ b ≠ 0x22 ∧ b ≠ 0x5C := by
  unfold safeSet at h
  simp at h
  omega

theorem decodeBody_cons_plain (b : Nat) (l : List Nat)
    (h1 : b ≠ 0x22) (h2 : b ≠ 0x5C) (h3 : ¬ b < 0x20) :
    decodeBody (b :: l) = (decodeBody l).map (b :: ·) := by
  rw [decodeBody.eq_def]
  simp only [if_neg h1, if_neg h2, if_neg h3]

theorem decodeBody_esc (e : Nat) (l : List Nat) (ch : Nat)
    (he : e ≠ 0x75) (hch : escChar e = some ch) :
    decodeBody (0x5C :: e :: l) = (decodeBody l).map (ch :: ·) := by
  rw [decodeBody.eq_def]
  norm_num
  rw [decodeEsc.eq_def]
  simp only [if_neg he]
  rw [hch]

theorem decodeUEsc_some (cp : Nat) (r3 : List Nat)
    (hs1 : ¬(0xD800 ≤ cp ∧ cp ≤ 0xDBFF)) (hs2 : ¬(0xDC00 ≤ cp ∧ cp ≤ 0xDFFF)) :
    decodeUEsc (some cp) r3 = (decodeBody r3).map (utf8Encode cp ++ ·) := by
  rw [decodeUEsc.eq_def]
  simp only [if_neg hs1, if_neg hs2]

theorem decodeBody_u (h1 h2 h3 h4 : Nat) (l : List Nat) (cp : Nat)
    (hhex : hex4 h1 h2 h3 h4 = some cp)
    (hs1 : ¬(0xD800 ≤ cp ∧ cp ≤ 0xDBFF)) (hs2 : ¬(0xDC00 ≤ cp ∧ cp ≤ 0xDFFF)) :
    decodeBody (0x5C :: 0x75 :: h1 :: h2 :: h3 :: h4 :: l) =
      (decodeBody l).map (utf8Encode cp ++ ·) := by
  rw [decodeBody.eq_def]
  norm_num
  rw [decodeEsc.eq_def]
  norm_num
  rw [hhex]
  exact decodeUEsc_some cp l hs1 hs2

/-- One step of the decoder over the escape of one input unit composes with
the rest of the decode: the central invariant behind the round-trip law. -/
theorem escape_decode_aux (n : Nat) :
    ∀ s : List Nat, s.length ≤ n → validUTF8 s = true →
      ∀ t, decodeBody (escaperSpec s ++ t) = (decodeBody t).map (s ++ ·) := by
  induction n with
  | zero =>
    intro s hlen hv t
    have hs : s = [] := by cases s <;> simp_all
    subst hs
    rw [escaperSpec]
    simp only [List.nil_append]
    cases decodeBody t <;> simp
  | succ n ih =>
    intro s hlen hv t
    cases s with
    | nil =>
      rw [escaperSpec]
      simp only [List.nil_append]
      cases decodeBody t <;> simp
    | cons b rest =>
      have hlen2 : rest.length ≤ n := by
        simp at hlen
        omega
      rw [escaperSpec]
      rw [validUTF8] at hv
      by_cases hb : b < 0x80
      case pos =>
        rw [if_pos hb] at hv ⊢
        by_cases hsafe : safeSet b = true
        case pos =>
          rw [if_pos hsafe]
          have hf := safeSet_facts b hsafe
          rw [List.append_assoc, List.singleton_append]
          rw [decodeBody_cons_plain b _ hf.2.1 hf.2.2 (by omega)]
          rw [ih rest hlen2 hv t]
          cases decodeBody t <;> simp
        case neg =>
          rw [if_neg hsafe]
          have hcases := not_safeSet_cases b hb hsafe
          rw [List.append_assoc]
          by_cases hq : b = 0x5C ∨ b = 0x22
          -- short escapes for backslash and quote
          case pos =>
            unfold escASCII
            rw [if_pos hq]
            rcases hq with hq | hq <;> subst hq
            · rw [List.cons_append, List.cons_append, List.nil_append]
              rw [decodeBody_esc 0x5C _ 0x5C (by omega) (by decide)]
              rw [ih rest hlen2 hv t]
              cases decodeBody t <;> simp
            · rw [List.cons_append, List.cons_append, List.nil_append]
              rw [decodeBody_esc 0x22 _ 0x22 (by omega) (by decide)]
              rw [ih rest hlen2 hv t]
              cases decodeBody t <;> simp
          case neg =>
            unfold escASCII
            rw [if_neg hq]
            by_cases hnl : b = 0x0A
            case pos =>
              rw [if_pos hnl]
              subst hnl
              rw [List.cons_append, List.cons_append, List.nil_append]
              rw [decodeBody_esc 0x6E _ 0x0A (by omega) (by decide)]
              rw [ih rest hlen2 hv t]
              cases decodeBody t <;> simp
            case neg =>
              rw [if_neg hnl]
              by_cases hcr : b = 0x0D
              case pos =>
                rw [if_pos hcr]
                subst hcr
                rw [List.cons_append, List.cons_append, List.nil_append]
                rw [decodeBody_esc 0x72 _ 0x0D (by omega) (by decide)]
                rw [ih rest hlen2 hv t]
                cases decodeBody t <;> simp
              case neg =>
                rw [if_neg hcr]
                by_cases htb : b = 0x09
                case pos =>
                  rw [if_pos htb]
                  subst htb
                  rw [List.cons_append, List.cons_append, List.nil_append]
                  rw [decodeBody_esc 0x74 _ 0x09 (by omega) (by decide)]
                  rw [ih rest hlen2 hv t]
                  cases decodeBody t <;> simp
                case neg =>
                  -- the \u00XX escape of a low control byte
                  rw [if_neg htb]
                  have hlow : b < 0x20 := by omega
                  have hhex : hex4 0x30 0x30 (hexDig (b / 0x10)) (hexDig (b % 0x10)) =
                      some b := by
                    unfold hex4
                    rw [show hexVal 0x30 = some 0 from by decide,
                      hexVal_hexDig (b / 0x10) (by omega),
                      hexVal_hexDig (b % 0x10) (by omega)]
                    show some (0 * 0x1000 + 0 * 0x100 + b / 0x10 * 0x10 + b % 0x10) = some b
                    congr 1
                    omega
                  simp only [List.cons_append, List.nil_append]
                  rw [decodeBody_u _ _ _ _ _ b hhex (by omega) (by omega)]
                  have henc : utf8Encode b = [b] := by
                    unfold utf8Encode
                    rw [if_pos (by omega)]
                  rw [henc]
                  rw [ih rest hlen2 hv t]
                  cases decodeBody t <;> simp
      case neg =>
        rw [if_neg hb] at hv ⊢
        rcases hcs : decodeRuneInString (b :: rest) with ⟨c, sz⟩
        simp only [hcs] at hv ⊢
        split at hv
        case isTrue hcond =>
          simp at hv
        case isFalse hcond =>
          have herr : ¬(c = 0xFFFD ∧ sz = 1) := by
            intro hx
            rcases hx with ⟨h1, h2⟩
            subst h1
            subst h2
            simp at hcond
          have hvalid := decodeRune_valid b rest c sz (by omega) hcs herr
          obtain ⟨hc80, hcmax, hcsur, hsz2, hsz4, henc, hmem⟩ := hvalid
          have hdlen : (rest.drop (sz - 1)).length ≤ n := by
            simp
            omega
          have hsplit : List.take sz (b :: rest) ++ List.drop (sz - 1) rest = b :: rest := by
            have h1 : List.drop (sz - 1) rest = List.drop sz (b :: rest) := by
              cases sz with
              | zero => omega
              | succ m => simp
            rw [h1, List.take_append_drop]
          rw [if_neg herr]
          by_cases hsep : c = 0x2028 ∨ c = 0x2029
          case pos =>
            rw [if_pos hsep]
            unfold u202x
            have hhex : hex4 0x32 0x30 0x32 (hexDig (c % 0x10)) = some c := by
              unfold hex4
              rw [show hexVal 0x32 = some 2 from by decide,
                show hexVal 0x30 = some 0 from by decide,
                hexVal_hexDig (c % 0x10) (by omega)]
              show some (2 * 0x1000 + 0 * 0x100 + 2 * 0x10 + c % 0x10) = some c
              rcases hsep with h | h <;> (subst h; rfl)
            simp only [List.cons_append, List.nil_append]
            rw [decodeBody_u _ _ _ _ _ c hhex (by omega) (by omega)]
            rw [henc]
            rw [ih (rest.drop (sz - 1)) hdlen hv t]
            cases decodeBody t with
            | none => simp
            | some v =>
              simp only [Option.map]
              rw [← List.append_assoc, hsplit]
              try simp
          case neg =>
            rw [if_neg hsep]
            rw [List.append_assoc]
            have hchunk : ∀ x ∈ List.take sz (b :: rest),
                0x20 ≤ x ∧ x ≠ 0x22 ∧ x ≠ 0x5C := by
              intro x hx
              have := hmem x hx
              omega
            rw [decodeBody_chunk _ hchunk]
            rw [ih (rest.drop (sz - 1)) hdlen hv t]
            cases decodeBody t with
            | none => simp
            | some v =>
              simp only [Option.map]
              rw [← List.append_assoc, hsplit]
              try simp

/-- Claim C2's domain: strings containing a control character, a double
quote, a backslash, or any non-ASCII byte. -/
def hasSpecial (s : List Nat) : Bool :=
  s.any (fun b => b < 0x20 || b = 0x22 || b = 0x5C || 0x80 ≤ b)

theorem validUTF8_ascii (s : List Nat) (h : ∀ b ∈ s, b < 0x80) :
    validUTF8 s = true := by
  induction s with
  | nil => rw [validUTF8]
  | cons b rest ih =>
    rw [validUTF8]
    rw [if_pos (h b (List.mem_cons_self b rest))]
    exact ih (fun x hx => h x (List.mem_cons_of_mem b hx))

theorem decodeBody_closing : decodeBody [0x22] = some [] := by
  rw [decodeBody.eq_def]
  norm_num

/-- Claim C3: for every input string, the Escaper emits safe-set ASCII bytes
verbatim; backslash, double quote, newline, carriage return and tab as their
two-character short escapes; every other byte below 0x20 as a `\\u00XX`
escape; every invalid UTF-8 byte as the replacement escape; U+2028/U+2029 as
`\\u2028`/`\\u2029`; and transforms nothing else — i.e.
`appendEscapedJSONString` appends exactly the unit-by-unit transformation
`escaperSpec` of its input. -/
theorem claimC3 (buf s : List Nat) :
    appendEscapedJSONString buf s = buf ++ escaperSpec s :=
  appendEscapedJSONString_eq buf s

/-- Claim C2, counterexample: the single invalid byte 0xFF is a non-ASCII
input; the Escaper renders it as the replacement escape, which a standard
JSON string decoder turns into the bytes of U+FFFD, not the original input:
the round-trip law fails on invalid UTF-8. -/
theorem claimC2_counterexample :
    hasSpecial [0xFF] = true ∧
    jsonDecodeString (0x22 :: (appendEscapedJSONString [] [0xFF] ++ [0x22])) ≠ some [0xFF] := by
  constructor
  · decide
  · have h1 : appendEscapedJSONString [] [0xFF] = uFFFD := by
      simp +decide [appendEscapedJSONString, escGo, decodeRuneInString, sliceStr, uFFFD]
    rw [h1]
    have h2 : decodeBody [0x5C, 0x75, 0x66, 0x66, 0x66, 0x64, 0x22] =
        some [0xEF, 0xBF, 0xBD] := by
      rw [decodeBody.eq_def]
      norm_num
      rw [decodeEsc.eq_def]
      norm_num [hex4, hexVal]
      rw [decodeUEsc.eq_def]
      norm_num [utf8Encode, decodeBody_closing]
    rw [jsonDecodeString]
    rw [if_pos rfl]
    rw [show uFFFD ++ [0x22] = [0x5C, 0x75, 0x66, 0x66, 0x66, 0x64, 0x22] from by decide]
    rw [h2]
    simp

/-- Claim C2 (amended): for every valid-UTF-8 input string that contains a
control character, a double quote, a backslash, or a non-ASCII byte, the
Escaper's output wrapped in double quotes parses back via a standard JSON
string decoder to exactly the original input.  (The validity restriction is
forced: invalid UTF-8 is rendered as the replacement escape and cannot round
trip.) -/
theorem claimC2 (s : List Nat) (hspec : hasSpecial s = true)
    (hvalid : validUTF8 s = true) :
    jsonDecodeString (0x22 :: (appendEscapedJSONString [] s ++ [0x22])) = some s := by
  rw [jsonDecodeString]
  rw [if_pos rfl]
  rw [appendEscapedJSONString_eq]
  simp only [List.nil_append]
  rw [escape_decode_aux s.length s (le_refl _) hvalid [0x22]]
  rw [decodeBody_closing]
  simp

/-- Witness for claim C2 at the concrete input consisting of one double
quote. -/
theorem claimC2_witness :
    hasSpecial [0x22] = true ∧ validUTF8 [0x22] = true ∧
    jsonDecodeString (0x22 :: (appendEscapedJSONString [] [0x22] ++ [0x22])) =
      some [0x22] :=
  ⟨by decide, validUTF8_ascii [0x22] (by decide),
    claimC2 [0x22] (by decide) (validUTF8_ascii [0x22] (by decide))⟩

/-! ## Data model: `slog.Attr`, `slog.Value`, `slog.Record`

`Value` models the `slog.Value` kinds the claims concern: String, Int64,
Uint64, Bool, Group, and the zero value (KindAny holding nil — Go's
`slog.Attr\x7b\x7d`).  The Float64, Duration, Time and marshalled-Any kinds
delegate to Go standard-library formatters and no claim depends on them, so
they are not modelled.  `Resolve()` is the identity on every modelled value
(none is a LogValuer). -/

mutual

inductive Value where
  | vstr (s : List Nat)
  | vint (i : Int)
  | vuint (n : Nat)
  | vbool (b : Bool)
  | vgroup (g : AttrList)
  | vnil

inductive Attr where
  | mk (key : List Nat) (val : Value)

inductive AttrList where
  | anil
  | acons (a : Attr) (rest : AttrList)

end

def Attr.key : Attr → List Nat
  | Attr.mk k _ => k

def Attr.val : Attr → Value
  | Attr.mk _ v => v

def AttrList.append : AttrList → AttrList → AttrList
  | AttrList.anil, l => l
  | AttrList.acons a r, l => AttrList.acons a (r.append l)

def AttrList.ofList : List Attr → AttrList
  | [] => AttrList.anil
  | a :: r => AttrList.acons a (AttrList.ofList r)

def AttrList.length : AttrList → Nat
  | AttrList.anil => 0
  | AttrList.acons _ r => r.length + 1

/-- Go's `attr.Equal(slog.Attr\x7b\x7d)`: the key is empty and the value is
the zero `slog.Value` (KindAny holding nil). -/
def attrIsZero : Attr → Bool
  | Attr.mk [] Value.vnil => true
  | _ => false

/-- A `time.Time` restricted to the calendar fields the formats render. -/
structure GoTime where
  year : Nat
  month : Nat
  day : Nat
  hour : Nat
  minute : Nat
  second : Nat

/-- Decimal rendering of a natural number (`strconv.AppendUint`). -/
def natDec (n : Nat) : List Nat :=
  if n < 10 then [0x30 + n] else natDec (n / 10) ++ [0x30 + n % 10]
decreasing_by omega

def intDec (i : Int) : List Nat :=
  if i < 0 then 0x2D :: natDec i.natAbs else natDec i.toNat

def pad2 (n : Nat) : List Nat :=
  if n < 10 then 0x30 :: natDec n else natDec n

def pad4 (n : Nat) : List Nat :=
  List.replicate (4 - (natDec n).length) 0x30 ++ natDec n

/-- `time.DateTime` = "2006-01-02 15:04:05". -/
def fmtDateTime (t : GoTime) : List Nat :=
  pad4 t.year ++ [0x2D] ++ pad2 t.month ++ [0x2D] ++ pad2 t.day ++ [0x20] ++
    pad2 t.hour ++ [0x3A] ++ pad2 t.minute ++ [0x3A] ++ pad2 t.second

/-- `time.TimeOnly` = "15:04:05". -/
def fmtTimeOnly (t : GoTime) : List Nat :=
  pad2 t.hour ++ [0x3A] ++ pad2 t.minute ++ [0x3A] ++ pad2 t.second

/-- `slog.Record`: timestamp, level (slog's Int levels: Debug -4, Info 0,
Warn 4, Error 8), message, ordered attributes. -/
structure Record where
  time : GoTime
  level : Int
  message : List Nat
  attrs : AttrList

/-- `levelBytes` from `src/tools.go`: the 4-letter level codes, defaulting
to INFO. -/
def levelBytes (level : Int) : List Nat :=
  if level = -4 then ascii "DEBU"
  else if level = 0 then ascii "INFO"
  else if level = 4 then ascii "WARN"
  else if level = 8 then ascii "ERRO"
  else ascii "INFO"

/-- The ANSI color byte strings of `src/logger.go`. -/
def reset : List Nat := [0x1B, 0x5B, 0x30, 0x6D]

def red : List Nat := [0x1B, 0x5B, 0x33, 0x31, 0x6D]

def green : List Nat := [0x1B, 0x5B, 0x33, 0x32, 0x6D]

def yellow : List Nat := [0x1B, 0x5B, 0x33, 0x33, 0x6D]

def blue : List Nat := [0x1B, 0x5B, 0x33, 0x34, 0x6D]

def magenta : List Nat := [0x1B, 0x5B, 0x33, 0x35, 0x6D]

/-- The source's `none` color (the empty byte string). -/
def noColor : List Nat := []

/-- `levelColor` from `src/tools.go`. -/
def levelColor (level : Int) : List Nat :=
  if level = -4 then blue
  else if level = 0 then green
  else if level = 4 then yellow
  else if level = 8 then red
  else noColor

/-! ## Go slices and the context attribute carrier (`src/tools.go`) -/

/-- A Go slice value: a backing array and the slice length.  The capacity is
the backing array length (offsets are not needed by the code under study). -/
structure GoSlice (α : Type) where
  arr : List α
  len : Nat

def GoSlice.view {α : Type} (s : GoSlice α) : List α := s.arr.take s.len

def GoSlice.ofList {α : Type} (l : List α) : GoSlice α := ⟨l, l.length⟩

/-- Write `xs` into `arr` starting at index `i` (Go's in-place append path). -/
def writeAt {α : Type} (arr : List α) (i : Nat) (xs : List α) : List α :=
  arr.take i ++ xs ++ arr.drop (i + xs.length)

/-- Go's `append(s, xs...)`: reuse the backing array when the capacity
suffices, otherwise allocate a fresh one. -/
def goAppend {α : Type} (s : GoSlice α) (xs : List α) : GoSlice α :=
  if s.len + xs.length ≤ s.arr.length then
    ⟨writeAt s.arr s.len xs, s.len + xs.length⟩
  else
    ⟨s.arr.take s.len ++ xs, s.len + xs.length⟩

/-- The backing array of `s` after `append(s, xs...)`: mutated in place on
the reuse path, untouched on the allocation path. -/
def goAppendBackingAfter {α : Type} (s : GoSlice α) (xs : List α) : List α :=
  if s.len + xs.length ≤ s.arr.length then writeAt s.arr s.len xs else s.arr

/-- The full slice expression `v[:len(v):len(v)]`: same visible elements,
capacity clamped to the length (modelled by clipping the backing array). -/
def sliceFull {α : Type} (s : GoSlice α) : GoSlice α := ⟨s.arr.take s.len, s.len⟩

/-- A call context, reduced to the one key the code reads: the attribute
slice stored under `AttrsKey` (`none` when absent or of another type). -/
structure Ctx where
  attrsVal : Option (GoSlice Attr)

/-- `AppendAttrsToCtx` from `src/tools.go`: no-op on an empty argument list;
otherwise prepend the context's current attributes (through the
capacity-clamping full slice expression, so Go's append must allocate) and
store the result under `AttrsKey`. -/
def AppendAttrsToCtx (c : Ctx) (attrs : List Attr) : Ctx :=
  if attrs.length = 0 then c
  else
    let stored :=
      match c.attrsVal with
      | some val =>
        if val.len ≠ 0 then goAppend (sliceFull val) attrs else GoSlice.ofList attrs
      | none => GoSlice.ofList attrs
    ⟨some stored⟩

/-! ## JSON builder (`src/json_builder.go`, shared by `part_004`) -/

namespace jsonBuilder

/-- `addComma`: append a comma unless the buffer is empty or already ends
with an opener or separator. -/
def addComma (buf : List Nat) : List Nat :=
  if buf.length > 0 then
    if buf.getD (buf.length - 1) 0 ≠ 0x7B ∧ buf.getD (buf.length - 1) 0 ≠ 0x2C ∧
        buf.getD (buf.length - 1) 0 ≠ 0x5B then
      buf ++ [0x2C]
    else buf
  else buf

/-- `appendString`: a quoted, escaped string value; the empty string renders
the `!EMPTY_VALUE` placeholder. -/
def appendString (buf s : List Nat) : List Nat :=
  let buf := buf ++ [0x22]
  let buf := if s.isEmpty then buf ++ ascii "!EMPTY_VALUE" else appendEscapedJSONString buf s
  buf ++ [0x22]

/-- `writeValue`: the value encodings of the modelled kinds.  The zero value
(KindAny, nil) is not an error and `json.Marshal(nil)` yields `null`; a group
reaching `writeValue` falls into the default `!UNHANDLED` arm, exactly as in
the Go switch (which has no KindGroup case). -/
def writeValue (buf : List Nat) : Value → List Nat
  | Value.vstr s => appendString buf s
  | Value.vint i => buf ++ intDec i
  | Value.vuint n => buf ++ natDec n
  | Value.vbool b => if b then buf ++ ascii "true" else buf ++ ascii "false"
  | Value.vnil => buf ++ ascii "null"
  | Value.vgroup _ => buf ++ ascii "!UNHANDLED"

mutual

/-- `jsonBuilder.appendAttr`: skip the zero attr; recurse into groups
(skipping empty groups, wrapping keyed groups in an escaped key and braces);
otherwise comma, escaped key (or `!EMPTY_KEY`), colon, value. -/
def appendAttr (buf : List Nat) : Attr → List Nat
  | Attr.mk key val =>
    if attrIsZero (Attr.mk key val) then buf
    else
      match val with
      | Value.vgroup g =>
        match g with
        | AttrList.anil => buf
        | AttrList.acons _ _ =>
          let buf :=
            if key ≠ [] then
              appendEscapedJSONString (addComma buf ++ [0x22]) key ++ ascii "\":\x7b"
            else buf
          let buf := appendAttrList buf g
          if key ≠ [] then buf ++ [0x7D] else buf
      | v =>
        let buf := addComma buf ++ [0x22]
        let buf :=
          if key = [] then buf ++ ascii "!EMPTY_KEY"
          else appendEscapedJSONString buf key
        writeValue (buf ++ ascii "\":") v

def appendAttrList (buf : List Nat) : AttrList → List Nat
  | AttrList.anil => buf
  | AttrList.acons a rest => appendAttrList (appendAttr buf a) rest

end

/-- `jsonBuilder.buildLog` from `src/json_builder.go` (first revision): the
message is appended raw (the source marks this append `dangerous`), the
precomputed bytes follow after a comma, then the record attributes, then the
`depth` closing braces of `WithGroup` groups. -/
def buildLog (buf : List Nat) (record : Record) (precomputed : List Nat)
    (depth : Nat) : List Nat :=
  let buf := buf ++ ascii "\x7b\"time\":\""
  let buf := buf ++ fmtDateTime record.time
  let buf := buf ++ ascii "\",\"level\":\""
  let buf := buf ++ levelBytes record.level
  let buf := buf ++ ascii "\",\"msg\":\""
  let buf :=
    if record.message.isEmpty then buf ++ ascii "!EMPTY_MESSAGE"
    else buf ++ record.message
  let buf := buf ++ [0x22]
  let buf := if precomputed.length > 0 then addComma buf ++ precomputed else buf
  let buf := if record.attrs.length > 0 then appendAttrList buf record.attrs else buf
  let buf := buf ++ List.replicate depth 0x7D
  buf ++ [0x7D, 0x0A]

/-- `jsonBuilder.groupPrefix`: open a group in the precomputed bytes.  The
group name is appended raw (the source marks this append `dangerous`);
`slices.Grow` only affects capacity. -/
def groupPfx (oldPfx : List Nat) (newPfx : List Nat) : List Nat :=
  addComma oldPfx ++ [0x22] ++ newPfx ++ ascii "\":\x7b"

/-- `jsonBuilder.precomputeAttrs`: fold the attributes into the precomputed
bytes (the group-prefix string parameter is ignored by the source). -/
def precomputeAttrs (buf : List Nat) (attrs : AttrList) : List Nat :=
  appendAttrList buf attrs

/-- The per-context-attribute loop of `part_004`'s `buildLog`:
`addComma` then `appendAttr`, for each attribute carried by the context. -/
def appendCtxAttrs (buf : List Nat) : List Attr → List Nat
  | [] => buf
  | a :: rest => appendCtxAttrs (appendAttr (addComma buf) a) rest

/-- `jsonBuilder.buildLog` from `src/unnamed/part_004`: same layout, with the
context attributes rendered first (before the precomputed bytes and the
record attributes); `precomputed` and `depth` are the builder's fields. -/
def buildLogCtx (ctx : Option Ctx) (buf : List Nat) (record : Record)
    (precomputed : List Nat) (depth : Nat) : List Nat :=
  let buf := buf ++ ascii "\x7b\"time\":\""
  let buf := buf ++ fmtDateTime record.time
  let buf := buf ++ ascii "\",\"level\":\""
  let buf := buf ++ levelBytes record.level
  let buf := buf ++ ascii "\",\"msg\":\""
  let buf :=
    if record.message.isEmpty then buf ++ ascii "!EMPTY_MESSAGE"
    else buf ++ record.message
  let buf := buf ++ [0x22]
  let buf :=
    match ctx with
    | some c =>
      match c.attrsVal with
      | some val => appendCtxAttrs buf val.view
      | none => buf
    | none => buf
  let buf := if precomputed.length > 0 then addComma buf ++ precomputed else buf
  let buf := if record.attrs.length > 0 then appendAttrList buf record.attrs else buf
  let buf := buf ++ List.replicate depth 0x7D
  buf ++ [0x7D, 0x0A]

end jsonBuilder

/-! ## Colorized text handler (`src/logger.go`, `src/unnamed/part_002`
first revision) -/

structure colorOptions where
  TimeColor : List Nat
  KeyColor : List Nat
  ValueColor : List Nat

/-- The state shared by all clones of a handler, reduced to the observable
lifecycle facts: whether buffered output was enabled (`bw != nil`), the
atomic closed flag, whether the `done` channel has been closed, and how many
flushes have been performed. -/
structure Shared where
  bwPresent : Bool
  closed : Bool
  doneClosed : Bool
  flushes : Nat
deriving DecidableEq

structure ColorizedHandler where
  colorOpts : colorOptions
  shared : Shared
  level : Int
  groupPfx : List Nat
  precomputed : List Nat

namespace ColorizedHandler

/-- `ColorizedHandler.writeValue` (part_002 first revision): raw strings with
the `!EMPTY_VALUE` placeholder; the zero value (KindAny, nil) is not an error
and marshals to `null`; a group reaching `writeValue` falls into the default
`!UNHANDLED` arm. -/
def writeValue (buf : List Nat) : Value → List Nat
  | Value.vstr s => if s.isEmpty then buf ++ ascii "!EMPTY_VALUE" else buf ++ s
  | Value.vint i => buf ++ intDec i
  | Value.vuint n => buf ++ natDec n
  | Value.vbool b => if b then buf ++ ascii "true" else buf ++ ascii "false"
  | Value.vnil => buf ++ ascii "null"
  | Value.vgroup _ => buf ++ ascii "!UNHANDLED"

mutual

/-- `ColorizedHandler.appendAttr`: skip the zero attr; flatten groups by
extending the dot prefix; render a leaf as
` <KeyColor><prefix><key>=<reset><ValueColor><value><reset>`. -/
def appendAttr (opts : colorOptions) (buf groupPrefixArg : List Nat) :
    Attr → List Nat
  | Attr.mk key val =>
    if attrIsZero (Attr.mk key val) then buf
    else
      match val with
      | Value.vgroup g =>
        let pfx := if key ≠ [] then groupPrefixArg ++ key ++ [0x2E] else groupPrefixArg
        appendAttrList opts buf pfx g
      | v =>
        let buf := buf ++ [0x20] ++ opts.KeyColor
        let buf := if groupPrefixArg.length > 0 then buf ++ groupPrefixArg else buf
        let key := if key = [] then ascii "!EMPTY_KEY" else key
        let buf := buf ++ key ++ [0x3D] ++ reset
        let buf := buf ++ opts.ValueColor
        let buf := writeValue buf v
        buf ++ reset

def appendAttrList (opts : colorOptions) (buf pfx : List Nat) :
    AttrList → List Nat
  | AttrList.anil => buf
  | AttrList.acons a rest => appendAttrList opts (appendAttr opts buf pfx a) pfx rest

end

/-- `ColorizedHandler.buildLog` (part_002 first revision):
`time | LEVEL | message` colorized, then the precomputed attributes, then
the record attributes under the accumulated group prefix. -/
def buildLog (h : ColorizedHandler) (buf : List Nat) (record : Record) :
    List Nat :=
  let buf := buf ++ h.colorOpts.TimeColor
  let buf := buf ++ fmtTimeOnly record.time
  let buf := buf ++ reset
  let buf := buf ++ ascii " | "
  let buf := buf ++ levelColor record.level
  let buf := buf ++ levelBytes record.level
  let buf := buf ++ reset
  let buf := buf ++ ascii " | "
  let buf := buf ++ levelColor record.level
  let buf := buf ++ record.message
  let buf := buf ++ reset
  let buf := if h.precomputed.length > 0 then buf ++ h.precomputed else buf
  let buf :=
    if record.attrs.length > 0 then
      appendAttrList h.colorOpts buf h.groupPfx record.attrs
    else buf
  buf ++ [0x0A]

/-- `ColorizedHandler.Enabled` from `src/logger.go`: false once closed,
otherwise `level >= h.level`. -/
def Enabled (h : ColorizedHandler) (level : Int) : Bool :=
  if h.shared.closed then false else decide (h.level ≤ level)

/-- `ColorizedHandler.Handle` from `src/logger.go`, as the bytes handed to
the writer: `nil`/no write once closed; otherwise the context's attribute
slice (if any) is appended to the record via `record.AddAttrs` and the
record is formatted into a fresh pool buffer. -/
def Handle (h : ColorizedHandler) (ctx : Option Ctx) (record : Record) :
    Option (List Nat) :=
  if h.shared.closed then none
  else
    let record :=
      match ctx with
      | some c =>
        match c.attrsVal with
        | some val => { record with attrs := record.attrs.append (AttrList.ofList val.view) }
        | none => record
      | none => record
    some (buildLog h [] record)

/-- The two error values of `Close`. -/
inductive CloseResult where
  | ok
  | nothingToClose
  | alreadyClosed
deriving DecidableEq

/-- `ColorizedHandler.Close` from `src/logger.go` as a transition on the
shared state: `ErrNothingToClose` when buffering was never enabled;
otherwise the atomic `closed.Swap(true)` decides — if the flag was already
set, `ErrAlreadyClosed`; else close the `done` channel, flush once, and
succeed. -/
def Close (s : Shared) : CloseResult × Shared :=
  if s.bwPresent = false then (CloseResult.nothingToClose, s)
  else if s.closed then (CloseResult.alreadyClosed, { s with closed := true })
  else
    (CloseResult.ok,
      { s with closed := true, doneClosed := true, flushes := s.flushes + 1 })

/-- `clone` from `src/logger.go`: a copy sharing the `shared` state. -/
def clone (h : ColorizedHandler) : ColorizedHandler :=
  { colorOpts := h.colorOpts, shared := h.shared, level := h.level,
    groupPfx := h.groupPfx, precomputed := h.precomputed }

/-- `ColorizedHandler.WithGroup`: no-op on the empty name, otherwise a clone
with `name + "."` appended to the group prefix. -/
def WithGroup (h : ColorizedHandler) (name : List Nat) : ColorizedHandler :=
  if name.isEmpty then h
  else { h.clone with groupPfx := h.groupPfx ++ name ++ [0x2E] }

/-- `ColorizedHandler.WithAttrs`: no-op on an empty list, otherwise a clone
whose precomputed bytes are the old ones followed by the new attributes
rendered under the current group prefix (into a fresh buffer, so siblings
never share backing storage). -/
def WithAttrs (h : ColorizedHandler) (attrs : AttrList) : ColorizedHandler :=
  if attrs.length = 0 then h
  else
    { h.clone with
        precomputed := appendAttrList h.colorOpts h.precomputed h.groupPfx attrs }

/-- `NewTextHandler` from `src/logger.go`: blue time, magenta keys, uncolored
values; a fresh shared state whose closed flag is clear and whose buffered
writer exists iff `BufferedOutput` is set. -/
def NewTextHandler (level : Int) (bufferedOutput : Bool) : ColorizedHandler :=
  { colorOpts := ⟨blue, magenta, noColor⟩,
    shared := ⟨bufferedOutput, false, false, 0⟩,
    level := level, groupPfx := [], precomputed := [] }

end ColorizedHandler

/-! ## Buffer-compositionality lemmas for the two builders -/

/-- The byte the source's `buf[len(buf)-1]` reads. -/
def lastByte (l : List Nat) : Nat := l.getD (l.length - 1) 0

theorem lastByte_eq (l : List Nat) : lastByte l = l.getLast?.getD 0 := by
  induction l with
  | nil => rfl
  | cons a t ih =>
    cases t with
    | nil => rfl
    | cons b u =>
      rw [List.getLast?_cons_cons, ← ih]
      unfold lastByte
      have h1 : (a :: b :: u).length - 1 = ((b :: u).length - 1) + 1 := by simp
      rw [h1, List.getD_cons_succ]

theorem lastByte_append (x z : List Nat) (hz : z ≠ []) :
    lastByte (x ++ z) = lastByte z := by
  rw [lastByte_eq, lastByte_eq, List.getLast?_append_of_ne_nil x hz]

/-- The comma `addComma` inserts before the buffer suffix. -/
def commaFor (buf : List Nat) : List Nat :=
  if buf.length > 0 ∧ lastByte buf ≠ 0x7B ∧ lastByte buf ≠ 0x2C ∧ lastByte buf ≠ 0x5B then
    [0x2C]
  else []

theorem addComma_eq_commaFor (buf : List Nat) :
    jsonBuilder.addComma buf = buf ++ commaFor buf := by
  unfold jsonBuilder.addComma commaFor lastByte
  by_cases h1 : buf.length > 0
  · rw [if_pos h1]
    by_cases h2 : buf.getD (buf.length - 1) 0 ≠ 0x7B ∧ buf.getD (buf.length - 1) 0 ≠ 0x2C ∧
        buf.getD (buf.length - 1) 0 ≠ 0x5B
    · rw [if_pos h2, if_pos ⟨h1, h2⟩]
    · rw [if_neg h2, if_neg (by tauto)]
      simp
  · rw [if_neg h1, if_neg (by tauto)]
    simp

theorem commaFor_shiftL (x z : List Nat) (hz : z ≠ []) :
    commaFor (x ++ z) = commaFor z := by
  unfold commaFor
  rw [lastByte_append x z hz]
  have hzl : 1 ≤ z.length := by
    cases z
    · exact absurd rfl hz
    · simp
  split_ifs <;> simp_all <;> omega

theorem addComma_shiftL (x z : List Nat) (hz : z ≠ []) :
    jsonBuilder.addComma (x ++ z) = x ++ jsonBuilder.addComma z := by
  rw [addComma_eq_commaFor, addComma_eq_commaFor, commaFor_shiftL x z hz,
    List.append_assoc]

theorem jsonAppendString_append (buf s : List Nat) :
    jsonBuilder.appendString buf s = buf ++ jsonBuilder.appendString [] s := by
  unfold jsonBuilder.appendString
  split_ifs <;> simp [appendEscapedJSONString_eq]

theorem jsonWriteValue_append (buf : List Nat) (v : Value) :
    jsonBuilder.writeValue buf v = buf ++ jsonBuilder.writeValue [] v := by
  cases v with
  | vstr s =>
    simp only [jsonBuilder.writeValue]
    rw [jsonAppendString_append buf s]
  | vbool b =>
    cases b <;> simp [jsonBuilder.writeValue]
  | _ => simp [jsonBuilder.writeValue]

/-! Unfolding equations for `jsonBuilder.appendAttr` (one per constructor
shape, so rewriting does not have to reduce the compiled matcher). -/

theorem jsonAppendAttr_zero (buf : List Nat) :
    jsonBuilder.appendAttr buf (Attr.mk [] Value.vnil) = buf := rfl

theorem jsonAppendAttr_vnil_cons (buf : List Nat) (k : Nat) (ks : List Nat) :
    jsonBuilder.appendAttr buf (Attr.mk (k :: ks) Value.vnil) =
      jsonBuilder.writeValue
        ((if (k :: ks) = [] then jsonBuilder.addComma buf ++ [0x22] ++ ascii "!EMPTY_KEY"
          else appendEscapedJSONString (jsonBuilder.addComma buf ++ [0x22]) (k :: ks)) ++
          ascii "\":") Value.vnil := rfl

theorem jsonAppendAttr_leaf (buf key : List Nat) (v : Value)
    (hv : ∀ g, v ≠ Value.vgroup g) (hn : v ≠ Value.vnil) :
    jsonBuilder.appendAttr buf (Attr.mk key v) =
      jsonBuilder.writeValue
        ((if key = [] then jsonBuilder.addComma buf ++ [0x22] ++ ascii "!EMPTY_KEY"
          else appendEscapedJSONString (jsonBuilder.addComma buf ++ [0x22]) key) ++
          ascii "\":") v := by
  cases v with
  | vgroup g => exact absurd rfl (hv g)
  | vnil => exact absurd rfl hn
  | _ => cases key <;> rfl

theorem jsonAppendAttr_group_nil (buf key : List Nat) :
    jsonBuilder.appendAttr buf (Attr.mk key (Value.vgroup AttrList.anil)) = buf := by
  cases key <;> rfl

theorem jsonAppendAttr_group_cons (buf key : List Nat) (c : Attr) (r : AttrList) :
    jsonBuilder.appendAttr buf (Attr.mk key (Value.vgroup (AttrList.acons c r))) =
      (if key ≠ [] then
        jsonBuilder.appendAttrList
          (appendEscapedJSONString (jsonBuilder.addComma buf ++ [0x22]) key ++
            ascii "\":\x7b") (AttrList.acons c r) ++ [0x7D]
      else jsonBuilder.appendAttrList buf (AttrList.acons c r)) := by
  cases key <;> rfl

theorem jsonAppendAttrList_nil (buf : List Nat) :
    jsonBuilder.appendAttrList buf AttrList.anil = buf := rfl

theorem jsonAppendAttrList_cons (buf : List Nat) (a : Attr) (r : AttrList) :
    jsonBuilder.appendAttrList buf (AttrList.acons a r) =
      jsonBuilder.appendAttrList (jsonBuilder.appendAttr buf a) r := rfl

theorem jsonWriteValue_shift (x y : List Nat) (v : Value) :
    jsonBuilder.writeValue (x ++ y) v = x ++ jsonBuilder.writeValue y v := by
  rw [jsonWriteValue_append (x ++ y) v, jsonWriteValue_append y v, List.append_assoc]

theorem jsonWriteValue_cons (a : Nat) (y : List Nat) (v : Value) :
    jsonBuilder.writeValue (a :: y) v = a :: jsonBuilder.writeValue y v := by
  have h := jsonWriteValue_shift [a] y v
  simpa using h

mutual

/-- Appending an attribute only ever extends the buffer, and depends on the
buffer only through a nonempty suffix (the code reads nothing but the last
byte). -/
theorem jsonAppendAttr_laws (a : Attr) :
    (∀ buf, ∃ w, jsonBuilder.appendAttr buf a = buf ++ w) ∧
    (∀ x z, z ≠ [] →
      jsonBuilder.appendAttr (x ++ z) a = x ++ jsonBuilder.appendAttr z a) := by
  cases a with
  | mk key val =>
    constructor
    · intro buf
      cases val with
      | vgroup g =>
        cases g with
        | anil =>
          rw [jsonAppendAttr_group_nil]
          exact ⟨[], by simp⟩
        | acons c r =>
          rw [jsonAppendAttr_group_cons]
          by_cases hk : key ≠ []
          · rw [if_pos hk]
            obtain ⟨w2, hw2⟩ :=
              (jsonAppendAttrList_laws (AttrList.acons c r)).1
                (appendEscapedJSONString (jsonBuilder.addComma buf ++ [0x22]) key ++
                  ascii "\":\x7b")
            rw [hw2]
            rw [appendEscapedJSONString_eq, addComma_eq_commaFor]
            simp only [List.append_assoc]
            exact ⟨_, rfl⟩
          · rw [if_neg hk]
            obtain ⟨w2, hw2⟩ := (jsonAppendAttrList_laws (AttrList.acons c r)).1 buf
            rw [hw2]
            exact ⟨w2, rfl⟩
      | vnil =>
        cases key with
        | nil =>
          rw [jsonAppendAttr_zero]
          exact ⟨[], by simp⟩
        | cons k ks =>
          rw [jsonAppendAttr_vnil_cons]
          rw [jsonWriteValue_append, appendEscapedJSONString_eq, addComma_eq_commaFor]
          rw [if_neg (by simp)]
          simp only [List.append_assoc]
          exact ⟨_, rfl⟩
      | vstr s =>
        rw [jsonAppendAttr_leaf buf key _ (by intro g h; cases h) (by intro h; cases h)]
        rw [jsonWriteValue_append, addComma_eq_commaFor]
        split_ifs
        · simp only [List.append_assoc]
          exact ⟨_, rfl⟩
        · rw [appendEscapedJSONString_eq]
          simp only [List.append_assoc]
          exact ⟨_, rfl⟩
      | vint i =>
        rw [jsonAppendAttr_leaf buf key _ (by intro g h; cases h) (by intro h; cases h)]
        rw [jsonWriteValue_append, addComma_eq_commaFor]
        split_ifs
        · simp only [List.append_assoc]
          exact ⟨_, rfl⟩
        · rw [appendEscapedJSONString_eq]
          simp only [List.append_assoc]
          exact ⟨_, rfl⟩
      | vuint m =>
        rw [jsonAppendAttr_leaf buf key _ (by intro g h; cases h) (by intro h; cases h)]
        rw [jsonWriteValue_append, addComma_eq_commaFor]
        split_ifs
        · simp only [List.append_assoc]
          exact ⟨_, rfl⟩
        · rw [appendEscapedJSONString_eq]
          simp only [List.append_assoc]
          exact ⟨_, rfl⟩
      | vbool b =>
        rw [jsonAppendAttr_leaf buf key _ (by intro g h; cases h) (by intro h; cases h)]
        rw [jsonWriteValue_append, addComma_eq_commaFor]
        split_ifs
        · simp only [List.append_assoc]
          exact ⟨_, rfl⟩
        · rw [appendEscapedJSONString_eq]
          simp only [List.append_assoc]
          exact ⟨_, rfl⟩
    · intro x z hz
      cases val with
      | vgroup g =>
        cases g with
        | anil => rw [jsonAppendAttr_group_nil, jsonAppendAttr_group_nil]
        | acons c r =>
          rw [jsonAppendAttr_group_cons, jsonAppendAttr_group_cons]
          by_cases hk : key ≠ []
          · rw [if_pos hk, if_pos hk]
            rw [addComma_shiftL x z hz]
            rw [appendEscapedJSONString_eq, appendEscapedJSONString_eq]
            simp only [List.append_assoc]
            rw [(jsonAppendAttrList_laws (AttrList.acons c r)).2 x
              (jsonBuilder.addComma z ++ ([0x22] ++ (escaperSpec key ++ ascii "\":\x7b")))
              (by simp)]
            simp
          · rw [if_neg hk, if_neg hk]
            exact (jsonAppendAttrList_laws (AttrList.acons c r)).2 x z hz
      | vnil =>
        cases key with
        | nil => rw [jsonAppendAttr_zero, jsonAppendAttr_zero]
        | cons k ks =>
          rw [jsonAppendAttr_vnil_cons, jsonAppendAttr_vnil_cons]
          rw [addComma_shiftL x z hz]
          rw [if_neg (by simp), if_neg (by simp)]
          simp [appendEscapedJSONString_eq, jsonWriteValue_shift, List.append_assoc]
      | vstr s =>
        rw [jsonAppendAttr_leaf (x ++ z) key _ (by intro g h; cases h) (by intro h; cases h),
          jsonAppendAttr_leaf z key _ (by intro g h; cases h) (by intro h; cases h)]
        rw [addComma_shiftL x z hz]
        split_ifs <;>
          simp [appendEscapedJSONString_eq, jsonWriteValue_shift, List.append_assoc]
      | vint i =>
        rw [jsonAppendAttr_leaf (x ++ z) key _ (by intro g h; cases h) (by intro h; cases h),
          jsonAppendAttr_leaf z key _ (by intro g h; cases h) (by intro h; cases h)]
        rw [addComma_shiftL x z hz]
        split_ifs <;>
          simp [appendEscapedJSONString_eq, jsonWriteValue_shift, List.append_assoc]
      | vuint m =>
        rw [jsonAppendAttr_leaf (x ++ z) key _ (by intro g h; cases h) (by intro h; cases h),
          jsonAppendAttr_leaf z key _ (by intro g h; cases h) (by intro h; cases h)]
        rw [addComma_shiftL x z hz]
        split_ifs <;>
          simp [appendEscapedJSONString_eq, jsonWriteValue_shift, List.append_assoc]
      | vbool b =>
        rw [jsonAppendAttr_leaf (x ++ z) key _ (by intro g h; cases h) (by intro h; cases h),
          jsonAppendAttr_leaf z key _ (by intro g h; cases h) (by intro h; cases h)]
        rw [addComma_shiftL x z hz]
        split_ifs <;>
          simp [appendEscapedJSONString_eq, jsonWriteValue_shift, List.append_assoc]
termination_by sizeOf a

theorem jsonAppendAttrList_laws (l : AttrList) :
    (∀ buf, ∃ w, jsonBuilder.appendAttrList buf l = buf ++ w) ∧
    (∀ x z, z ≠ [] →
      jsonBuilder.appendAttrList (x ++ z) l = x ++ jsonBuilder.appendAttrList z l) := by
  cases l with
  | anil =>
    constructor
    · intro buf
      exact ⟨[], by simp [jsonAppendAttrList_nil]⟩
    · intro x z hz
      rw [jsonAppendAttrList_nil, jsonAppendAttrList_nil]
  | acons a r =>
    constructor
    · intro buf
      rw [jsonAppendAttrList_cons]
      obtain ⟨w1, hw1⟩ := (jsonAppendAttr_laws a).1 buf
      obtain ⟨w2, hw2⟩ := (jsonAppendAttrList_laws r).1 (buf ++ w1)
      rw [hw1, hw2]
      exact ⟨w1 ++ w2, by simp⟩
    · intro x z hz
      rw [jsonAppendAttrList_cons, jsonAppendAttrList_cons]
      rw [(jsonAppendAttr_laws a).2 x z hz]
      obtain ⟨w1, hw1⟩ := (jsonAppendAttr_laws a).1 z
      have hne : jsonBuilder.appendAttr z a ≠ [] := by
        rw [hw1]
        intro hcon
        have hlen := congrArg List.length hcon
        simp at hlen
        exact hz hlen.1
      exact (jsonAppendAttrList_laws r).2 x (jsonBuilder.appendAttr z a) hne
termination_by sizeOf l

end

/-! ## Text builder compositionality -/

theorem if_length_append (buf l : List Nat) :
    (if l.length > 0 then buf ++ l else buf) = buf ++ l := by
  cases l <;> simp

theorem textWriteValue_append (buf : List Nat) (v : Value) :
    ColorizedHandler.writeValue buf v = buf ++ ColorizedHandler.writeValue [] v := by
  cases v with
  | vstr s =>
    simp only [ColorizedHandler.writeValue]
    split_ifs <;> simp
  | vbool b =>
    cases b <;> simp [ColorizedHandler.writeValue]
  | _ => simp [ColorizedHandler.writeValue]

theorem textWriteValue_shift (x y : List Nat) (v : Value) :
    ColorizedHandler.writeValue (x ++ y) v = x ++ ColorizedHandler.writeValue y v := by
  rw [textWriteValue_append (x ++ y) v, textWriteValue_append y v, List.append_assoc]

theorem textWriteValue_cons (a : Nat) (y : List Nat) (v : Value) :
    ColorizedHandler.writeValue (a :: y) v = a :: ColorizedHandler.writeValue y v := by
  have h := textWriteValue_shift [a] y v
  simpa using h

theorem textAppendAttr_zero (opts : colorOptions) (buf pfx : List Nat) :
    ColorizedHandler.appendAttr opts buf pfx (Attr.mk [] Value.vnil) = buf := rfl

theorem textAppendAttr_group (opts : colorOptions) (buf pfx key : List Nat)
    (g : AttrList) :
    ColorizedHandler.appendAttr opts buf pfx (Attr.mk key (Value.vgroup g)) =
      ColorizedHandler.appendAttrList opts buf
        (if key ≠ [] then pfx ++ key ++ [0x2E] else pfx) g := by
  cases key <;> rfl

theorem textAppendAttr_vnil_cons (opts : colorOptions) (buf pfx : List Nat)
    (k : Nat) (ks : List Nat) :
    ColorizedHandler.appendAttr opts buf pfx (Attr.mk (k :: ks) Value.vnil) =
      ColorizedHandler.writeValue
        ((if pfx.length > 0 then buf ++ [0x20] ++ opts.KeyColor ++ pfx
          else buf ++ [0x20] ++ opts.KeyColor) ++
          (if (k :: ks) = [] then ascii "!EMPTY_KEY" else k :: ks) ++ [0x3D] ++ reset ++
          opts.ValueColor) Value.vnil ++ reset := rfl

theorem textAppendAttr_leaf (opts : colorOptions) (buf pfx key : List Nat) (v : Value)
    (hv : ∀ g, v ≠ Value.vgroup g) (hn : v ≠ Value.vnil) :
    ColorizedHandler.appendAttr opts buf pfx (Attr.mk key v) =
      ColorizedHandler.writeValue
        ((if pfx.length > 0 then buf ++ [0x20] ++ opts.KeyColor ++ pfx
          else buf ++ [0x20] ++ opts.KeyColor) ++
          (if key = [] then ascii "!EMPTY_KEY" else key) ++ [0x3D] ++ reset ++
          opts.ValueColor) v ++ reset := by
  cases v with
  | vgroup g => exact absurd rfl (hv g)
  | vnil => exact absurd rfl hn
  | _ => cases key <;> rfl

theorem textAppendAttrList_nil (opts : colorOptions) (buf pfx : List Nat) :
    ColorizedHandler.appendAttrList opts buf pfx AttrList.anil = buf := rfl

theorem textAppendAttrList_cons (opts : colorOptions) (buf pfx : List Nat)
    (a : Attr) (r : AttrList) :
    ColorizedHandler.appendAttrList opts buf pfx (AttrList.acons a r) =
      ColorizedHandler.appendAttrList opts
        (ColorizedHandler.appendAttr opts buf pfx a) pfx r := rfl

mutual

/-- The text renderer never inspects the buffer: its output is the buffer
followed by bytes that depend only on the attribute and the prefix. -/
theorem textAppendAttr_shift (a : Attr) :
    ∀ (opts : colorOptions) (buf pfx : List Nat),
      ColorizedHandler.appendAttr opts buf pfx a =
        buf ++ ColorizedHandler.appendAttr opts [] pfx a := by
  intro opts buf pfx
  cases a with
  | mk key val =>
    cases val with
    | vgroup g =>
      rw [textAppendAttr_group, textAppendAttr_group]
      exact textAppendAttrList_shift g opts buf _
    | vnil =>
      cases key with
      | nil =>
        rw [textAppendAttr_zero, textAppendAttr_zero]
        simp
      | cons k ks =>
        rw [textAppendAttr_vnil_cons, textAppendAttr_vnil_cons]
        rw [if_length_append, if_length_append]
        simp [textWriteValue_shift, List.append_assoc]
    | vstr s =>
      rw [textAppendAttr_leaf opts buf pfx key _ (by intro g h; cases h) (by intro h; cases h),
        textAppendAttr_leaf opts [] pfx key _ (by intro g h; cases h) (by intro h; cases h)]
      rw [if_length_append, if_length_append]
      simp [textWriteValue_shift, List.append_assoc]
    | vint i =>
      rw [textAppendAttr_leaf opts buf pfx key _ (by intro g h; cases h) (by intro h; cases h),
        textAppendAttr_leaf opts [] pfx key _ (by intro g h; cases h) (by intro h; cases h)]
      rw [if_length_append, if_length_append]
      simp [textWriteValue_shift, List.append_assoc]
    | vuint m =>
      rw [textAppendAttr_leaf opts buf pfx key _ (by intro g h; cases h) (by intro h; cases h),
        textAppendAttr_leaf opts [] pfx key _ (by intro g h; cases h) (by intro h; cases h)]
      rw [if_length_append, if_length_append]
      simp [textWriteValue_shift, List.append_assoc]
    | vbool b =>
      rw [textAppendAttr_leaf opts buf pfx key _ (by intro g h; cases h) (by intro h; cases h),
        textAppendAttr_leaf opts [] pfx key _ (by intro g h; cases h) (by intro h; cases h)]
      rw [if_length_append, if_length_append]
      simp [textWriteValue_shift, List.append_assoc]
termination_by sizeOf a

theorem textAppendAttrList_shift (l : AttrList) :
    ∀ (opts : colorOptions) (buf pfx : List Nat),
      ColorizedHandler.appendAttrList opts buf pfx l =
        buf ++ ColorizedHandler.appendAttrList opts [] pfx l := by
  intro opts buf pfx
  cases l with
  | anil =>
    rw [textAppendAttrList_nil, textAppendAttrList_nil]
    simp
  | acons a r =>
    rw [textAppendAttrList_cons, textAppendAttrList_cons]
    rw [textAppendAttr_shift a opts buf pfx]
    rw [textAppendAttrList_shift r opts (buf ++ ColorizedHandler.appendAttr opts [] pfx a) pfx]
    rw [textAppendAttrList_shift r opts (ColorizedHandler.appendAttr opts [] pfx a) pfx]
    simp
termination_by sizeOf l

end

/-! ## Claims C5, C6, C9: lifecycle -/

/-- A sequence of `Close` calls on the shared state (each call is atomic in
the source — the `closed` exchange decides the winner — so any concurrent
execution is one of these sequentialisations); returns how many calls
succeeded and the final state. -/
def closeCount : Nat → Shared → Nat × Shared
  | 0, s => (0, s)
  | n + 1, s =>
    let r := ColorizedHandler.Close s
    let k := closeCount n r.2
    ((if r.1 = ColorizedHandler.CloseResult.ok then 1 else 0) + k.1, k.2)

theorem close_closed (s : Shared) (hc : s.closed = true) :
    (ColorizedHandler.Close s).1 ≠ ColorizedHandler.CloseResult.ok ∧
    (ColorizedHandler.Close s).2.closed = true := by
  unfold ColorizedHandler.Close
  split_ifs <;> simp_all

theorem closeCount_closed (n : Nat) :
    ∀ s : Shared, s.closed = true → (closeCount n s).1 = 0 := by
  induction n with
  | zero => intro s hc; rfl
  | succ n ih =>
    intro s hc
    obtain ⟨h1, h2⟩ := close_closed s hc
    simp only [closeCount]
    rw [if_neg h1, ih _ h2]

/-- Claim C6: `Enabled` returns false unconditionally once the handler is
closed; otherwise it is true exactly when the level reaches the configured
threshold, the boundary `level = threshold` included. -/
theorem claimC6 (h : ColorizedHandler) (lvl : Int) :
    (h.shared.closed = true → ColorizedHandler.Enabled h lvl = false) ∧
    (h.shared.closed = false →
      (ColorizedHandler.Enabled h lvl = true ↔ h.level ≤ lvl)) ∧
    (h.shared.closed = false → ColorizedHandler.Enabled h h.level = true) := by
  unfold ColorizedHandler.Enabled
  refine ⟨?_, ?_, ?_⟩ <;> intro hc <;> simp [hc]

/-- Witness for claim C6 on a freshly constructed handler at the boundary
level. -/
theorem claimC6_witness :
    ColorizedHandler.Enabled (ColorizedHandler.NewTextHandler 0 false) 0 = true :=
  (claimC6 (ColorizedHandler.NewTextHandler 0 false) 0).2.2 rfl

/-- Claim C5: `Close` fails with `NothingToClose` when buffering was never
enabled; otherwise the first `Close` succeeds — setting the closed flag,
closing the done channel, and performing one flush — every later `Close`
fails with `AlreadyClosed`, and of any number of (sequentialised atomic)
`Close` calls exactly one succeeds. -/
theorem claimC5 (s : Shared) :
    (s.bwPresent = false →
      ColorizedHandler.Close s = (ColorizedHandler.CloseResult.nothingToClose, s)) ∧
    (s.bwPresent = true → s.closed = false →
      (ColorizedHandler.Close s).1 = ColorizedHandler.CloseResult.ok ∧
      (ColorizedHandler.Close s).2.closed = true ∧
      (ColorizedHandler.Close s).2.doneClosed = true ∧
      (ColorizedHandler.Close s).2.flushes = s.flushes + 1 ∧
      (ColorizedHandler.Close (ColorizedHandler.Close s).2).1 =
        ColorizedHandler.CloseResult.alreadyClosed) ∧
    (s.bwPresent = true → s.closed = false →
      ∀ n, (closeCount (n + 1) s).1 = 1) := by
  refine ⟨?_, ?_, ?_⟩
  · intro hb
    unfold ColorizedHandler.Close
    rw [if_pos hb]
  · intro hb hc
    unfold ColorizedHandler.Close
    rw [if_neg (by simp [hb]), if_neg (by simp [hc])]
    simp [hb]
  · intro hb hc n
    simp only [closeCount]
    have h1 : (ColorizedHandler.Close s).1 = ColorizedHandler.CloseResult.ok := by
      unfold ColorizedHandler.Close
      rw [if_neg (by simp [hb]), if_neg (by simp [hc])]
    have h2 : (ColorizedHandler.Close s).2.closed = true := by
      unfold ColorizedHandler.Close
      rw [if_neg (by simp [hb]), if_neg (by simp [hc])]
    rw [if_pos h1, closeCount_closed n _ h2]

/-- Witness for claim C5: a never-buffered state, and a buffered open state
closed twice then hammered with three sequential calls. -/
theorem claimC5_witness :
    ColorizedHandler.Close ⟨false, false, false, 0⟩ =
      (ColorizedHandler.CloseResult.nothingToClose, ⟨false, false, false, 0⟩) ∧
    (ColorizedHandler.Close ⟨true, false, false, 0⟩).1 =
      ColorizedHandler.CloseResult.ok ∧
    (ColorizedHandler.Close
      (ColorizedHandler.Close ⟨true, false, false, 0⟩).2).1 =
      ColorizedHandler.CloseResult.alreadyClosed ∧
    (closeCount 3 ⟨true, false, false, 0⟩).1 = 1 :=
  ⟨(claimC5 ⟨false, false, false, 0⟩).1 rfl,
    ((claimC5 ⟨true, false, false, 0⟩).2.1 rfl rfl).1,
    ((claimC5 ⟨true, false, false, 0⟩).2.1 rfl rfl).2.2.2.2,
    (claimC5 ⟨true, false, false, 0⟩).2.2 rfl rfl 2⟩

/-- Claim C9: whenever `Close` returns an error the shared state is
unchanged — flag, done channel and flush count keep their values — and on a
never-buffered handler no number of `Close` calls changes the state, so
`Enabled` and `Handle` behave as if `Close` had never been called. -/
theorem claimC9 :
    (∀ s : Shared,
      (ColorizedHandler.Close s).1 ≠ ColorizedHandler.CloseResult.ok →
      (ColorizedHandler.Close s).2 = s) ∧
    (∀ (s : Shared) (n : Nat), s.bwPresent = false → (closeCount n s).2 = s) ∧
    (∀ (h : ColorizedHandler) (n : Nat) (lvl : Int) (ctx : Option Ctx) (rec : Record),
      h.shared.bwPresent = false →
      ColorizedHandler.Enabled { h with shared := (closeCount n h.shared).2 } lvl =
        ColorizedHandler.Enabled h lvl ∧
      ColorizedHandler.Handle { h with shared := (closeCount n h.shared).2 } ctx rec =
        ColorizedHandler.Handle h ctx rec) := by
  have hstate : ∀ s : Shared,
      (ColorizedHandler.Close s).1 ≠ ColorizedHandler.CloseResult.ok →
      (ColorizedHandler.Close s).2 = s := by
    intro s hr
    unfold ColorizedHandler.Close at *
    split_ifs at * with h1 h2
    · rfl
    · cases s
      simp_all
    · simp_all
  have hiter : ∀ (n : Nat) (s : Shared), s.bwPresent = false → (closeCount n s).2 = s := by
    intro n
    induction n with
    | zero => intro s hb; rfl
    | succ n ih =>
      intro s hb
      simp only [closeCount]
      have h1 : ColorizedHandler.Close s = (ColorizedHandler.CloseResult.nothingToClose, s) := by
        unfold ColorizedHandler.Close
        rw [if_pos hb]
      rw [h1]
      exact ih s hb
  refine ⟨hstate, fun s n hb => hiter n s hb, ?_⟩
  intro h n lvl ctx rec hb
  rw [hiter n h.shared hb]
  constructor <;> rfl

/-- Witness for claim C9 at concrete states: an already-closed buffered
state (error leaves it untouched) and a never-buffered handler closed twice. -/
theorem claimC9_witness :
    (ColorizedHandler.Close ⟨true, true, true, 1⟩).2 = ⟨true, true, true, 1⟩ ∧
    (closeCount 2 ⟨false, false, false, 0⟩).2 = ⟨false, false, false, 0⟩ ∧
    ColorizedHandler.Enabled
      { ColorizedHandler.NewTextHandler 0 false with
          shared := (closeCount 2 (ColorizedHandler.NewTextHandler 0 false).shared).2 } 0 =
      ColorizedHandler.Enabled (ColorizedHandler.NewTextHandler 0 false) 0 :=
  ⟨claimC9.1 ⟨true, true, true, 1⟩ (by decide),
    claimC9.2.1 ⟨false, false, false, 0⟩ 2 rfl,
    (claimC9.2.2 (ColorizedHandler.NewTextHandler 0 false) 2 0 none
      ⟨⟨1900, 1, 1, 0, 0, 0⟩, 0, [], AttrList.anil⟩ rfl).1⟩

/-! ## Claim C8: zero attrs and empty groups render nothing -/

theorem json_skip_in_list (a : Attr) (hskip : ∀ buf, jsonBuilder.appendAttr buf a = buf) :
    ∀ (l1 : AttrList) (buf : List Nat) (l2 : AttrList),
      jsonBuilder.appendAttrList buf (AttrList.append l1 (AttrList.acons a l2)) =
        jsonBuilder.appendAttrList buf (AttrList.append l1 l2)
  | AttrList.anil, buf, l2 => by
    simp only [AttrList.append]
    rw [jsonAppendAttrList_cons, hskip]
  | AttrList.acons b r, buf, l2 => by
    simp only [AttrList.append]
    rw [jsonAppendAttrList_cons, jsonAppendAttrList_cons]
    exact json_skip_in_list a hskip r _ l2
termination_by l1 => sizeOf l1

theorem text_skip_in_list (a : Attr)
    (hskip : ∀ opts buf pfx, ColorizedHandler.appendAttr opts buf pfx a = buf) :
    ∀ (l1 : AttrList) (opts : colorOptions) (buf pfx : List Nat) (l2 : AttrList),
      ColorizedHandler.appendAttrList opts buf pfx
          (AttrList.append l1 (AttrList.acons a l2)) =
        ColorizedHandler.appendAttrList opts buf pfx (AttrList.append l1 l2)
  | AttrList.anil, opts, buf, pfx, l2 => by
    simp only [AttrList.append]
    rw [textAppendAttrList_cons, hskip]
  | AttrList.acons b r, opts, buf, pfx, l2 => by
    simp only [AttrList.append]
    rw [textAppendAttrList_cons, textAppendAttrList_cons]
    exact text_skip_in_list a hskip r opts _ pfx l2
termination_by l1 => sizeOf l1

/-- Claim C8: the zero-valued Attr and a group attribute with no children
contribute zero bytes in both variants; since record attributes, `WithAttrs`
precomputation and group children all render through `appendAttr`, such an
attribute placed anywhere in a rendered attribute list leaves the output
unchanged. -/
theorem claimC8 :
    (∀ buf, jsonBuilder.appendAttr buf (Attr.mk [] Value.vnil) = buf) ∧
    (∀ buf key, jsonBuilder.appendAttr buf (Attr.mk key (Value.vgroup AttrList.anil)) = buf) ∧
    (∀ opts buf pfx,
      ColorizedHandler.appendAttr opts buf pfx (Attr.mk [] Value.vnil) = buf) ∧
    (∀ opts buf pfx key,
      ColorizedHandler.appendAttr opts buf pfx (Attr.mk key (Value.vgroup AttrList.anil)) = buf) ∧
    (∀ (a : Attr), (a = Attr.mk [] Value.vnil ∨
        ∃ k, a = Attr.mk k (Value.vgroup AttrList.anil)) →
      (∀ (buf : List Nat) (l1 l2 : AttrList),
        jsonBuilder.appendAttrList buf (AttrList.append l1 (AttrList.acons a l2)) =
          jsonBuilder.appendAttrList buf (AttrList.append l1 l2)) ∧
      (∀ (opts : colorOptions) (buf pfx : List Nat) (l1 l2 : AttrList),
        ColorizedHandler.appendAttrList opts buf pfx
            (AttrList.append l1 (AttrList.acons a l2)) =
          ColorizedHandler.appendAttrList opts buf pfx (AttrList.append l1 l2))) := by
  have hj : ∀ buf key, jsonBuilder.appendAttr buf
      (Attr.mk key (Value.vgroup AttrList.anil)) = buf := fun buf key =>
    jsonAppendAttr_group_nil buf key
  have ht : ∀ opts buf pfx key, ColorizedHandler.appendAttr opts buf pfx
      (Attr.mk key (Value.vgroup AttrList.anil)) = buf := by
    intro opts buf pfx key
    rw [textAppendAttr_group]
    exact textAppendAttrList_nil opts buf _
  refine ⟨fun buf => jsonAppendAttr_zero buf, hj,
    fun opts buf pfx => textAppendAttr_zero opts buf pfx, ht, ?_⟩
  intro a ha
  have hskipj : ∀ buf, jsonBuilder.appendAttr buf a = buf := by
    rcases ha with h | ⟨k, h⟩ <;> subst h
    · exact fun buf => jsonAppendAttr_zero buf
    · exact fun buf => hj buf k
  have hskipt : ∀ opts buf pfx, ColorizedHandler.appendAttr opts buf pfx a = buf := by
    rcases ha with h | ⟨k, h⟩ <;> subst h
    · exact fun opts buf pfx => textAppendAttr_zero opts buf pfx
    · exact fun opts buf pfx => ht opts buf pfx k
  constructor
  · intro buf l1 l2
    exact json_skip_in_list a hskipj l1 buf l2
  · intro opts buf pfx l1 l2
    exact text_skip_in_list a hskipt l1 opts buf pfx l2

/-- Witness for claim C8: a zero attr spliced into a concrete rendered list
changes nothing, in either variant. -/
theorem claimC8_witness :
    jsonBuilder.appendAttrList [0x7B]
      ((AttrList.acons (Attr.mk [0x6B] (Value.vbool true)) AttrList.anil).append
        (AttrList.acons (Attr.mk [] Value.vnil) AttrList.anil)) =
      jsonBuilder.appendAttrList [0x7B]
        ((AttrList.acons (Attr.mk [0x6B] (Value.vbool true)) AttrList.anil).append
          AttrList.anil) ∧
    ColorizedHandler.appendAttrList ⟨[], [], []⟩ [] []
      ((AttrList.acons (Attr.mk [0x6B] (Value.vbool true)) AttrList.anil).append
        (AttrList.acons (Attr.mk [0x67] (Value.vgroup AttrList.anil)) AttrList.anil)) =
      ColorizedHandler.appendAttrList ⟨[], [], []⟩ [] []
        ((AttrList.acons (Attr.mk [0x6B] (Value.vbool true)) AttrList.anil).append
          AttrList.anil) :=
  ⟨((claimC8.2.2.2.2 (Attr.mk [] Value.vnil) (Or.inl rfl)).1 [0x7B]
      (AttrList.acons (Attr.mk [0x6B] (Value.vbool true)) AttrList.anil) AttrList.anil),
    ((claimC8.2.2.2.2 (Attr.mk [0x67] (Value.vgroup AttrList.anil))
      (Or.inr ⟨[0x67], rfl⟩)).2 ⟨[], [], []⟩ [] []
      (AttrList.acons (Attr.mk [0x6B] (Value.vbool true)) AttrList.anil) AttrList.anil)⟩

/-! ## Claim C10: context attribute accumulation -/

/-- The attribute sequence a context carries. -/
def ctxSeq (c : Ctx) : List Attr :=
  match c.attrsVal with
  | some v => v.view
  | none => []

/-- Go's slice invariant: the stored length never exceeds the capacity. -/
def ctxWF (c : Ctx) : Bool :=
  match c.attrsVal with
  | some v => decide (v.len ≤ v.arr.length)
  | none => true

/-- Claim C10: `AppendAttrsToCtx` returns the context unchanged on an empty
argument list; otherwise the stored sequence is the parent's followed by the
new attributes, the parent's backing array is never written (the
capacity-clamping slice expression forces Go's append to allocate), so two
children derived from the same parent carry independent sequences. -/
theorem claimC10 :
    (∀ c, AppendAttrsToCtx c [] = c) ∧
    (∀ c attrs, attrs ≠ [] → ctxWF c = true →
      ctxSeq (AppendAttrsToCtx c attrs) = ctxSeq c ++ attrs) ∧
    (∀ (val : GoSlice Attr) (attrs : List Attr), attrs ≠ [] →
      goAppendBackingAfter (sliceFull val) attrs = (sliceFull val).arr) ∧
    (∀ c xs ys, xs ≠ [] → ys ≠ [] → ctxWF c = true →
      ctxSeq (AppendAttrsToCtx c xs) = ctxSeq c ++ xs ∧
      ctxSeq (AppendAttrsToCtx c ys) = ctxSeq c ++ ys) := by
  have hgrow : ∀ c attrs, attrs ≠ [] → ctxWF c = true →
      ctxSeq (AppendAttrsToCtx c attrs) = ctxSeq c ++ attrs := by
    intro c attrs hne hwf
    have hlen : attrs.length ≠ 0 := by
      intro h
      exact hne (List.eq_nil_of_length_eq_zero h)
    unfold AppendAttrsToCtx
    rw [if_neg hlen]
    cases c with
    | mk av =>
      cases av with
      | none =>
        simp [ctxSeq, GoSlice.ofList, GoSlice.view]
      | some val =>
        unfold ctxWF at hwf
        simp only at hwf
        have hwf2 : val.len ≤ val.arr.length := by
          exact of_decide_eq_true hwf
        by_cases hl : val.len ≠ 0
        · simp only [if_pos hl]
          unfold goAppend sliceFull
          rw [if_neg (by
            simp only [List.length_take]
            omega)]
          simp only [ctxSeq, GoSlice.view]
          have h1 : (val.arr.take val.len).take val.len = val.arr.take val.len := by
            rw [List.take_take]
            simp
          rw [h1]
          rw [List.take_of_length_le (by
            simp only [List.length_append, List.length_take]
            omega)]
        · simp only [if_neg hl]
          simp only [not_not] at hl
          simp [ctxSeq, GoSlice.ofList, GoSlice.view, hl]
  refine ⟨?_, hgrow, ?_, ?_⟩
  · intro c
    unfold AppendAttrsToCtx
    norm_num
  · intro val attrs hne
    have hlen : 1 ≤ attrs.length := by
      cases attrs
      · exact absurd rfl hne
      · simp
    unfold goAppendBackingAfter sliceFull
    rw [if_neg (by
      simp only [List.length_take]
      omega)]
  · intro c xs ys hx hy hwf
    exact ⟨hgrow c xs hx hwf, hgrow c ys hy hwf⟩

/-- Witness for claim C10: a parent context holding one attribute, extended
by two different children. -/
theorem claimC10_witness :
    ctxSeq (AppendAttrsToCtx ⟨some ⟨[Attr.mk [0x70] Value.vnil], 1⟩⟩
        [Attr.mk [0x78] Value.vnil]) =
      [Attr.mk [0x70] Value.vnil] ++ [Attr.mk [0x78] Value.vnil] ∧
    ctxSeq (AppendAttrsToCtx ⟨some ⟨[Attr.mk [0x70] Value.vnil], 1⟩⟩
        [Attr.mk [0x79] Value.vnil]) =
      [Attr.mk [0x70] Value.vnil] ++ [Attr.mk [0x79] Value.vnil] := by
  have h := claimC10.2.2.2 ⟨some ⟨[Attr.mk [0x70] Value.vnil], 1⟩⟩
    [Attr.mk [0x78] Value.vnil] [Attr.mk [0x79] Value.vnil]
    (by simp) (by simp) (by decide)
  have hseq : ctxSeq ⟨some ⟨[Attr.mk [0x70] Value.vnil], 1⟩⟩ =
      [Attr.mk [0x70] Value.vnil] := rfl
  rw [hseq] at h
  exact h

/-! ## Claim C7: nested group depth -/

/-- An attribute nested inside a chain of single-child groups (depth =
chain length). -/
def nestAttr : List (List Nat) → List Nat → Value → Attr
  | [], k, v => Attr.mk k v
  | g :: gs, k, v =>
    Attr.mk g (Value.vgroup (AttrList.acons (nestAttr gs k v) AttrList.anil))

/-- The dot-joined text prefix of a group chain: one `name.` segment per
level. -/
def dotJoin : List (List Nat) → List Nat
  | [] => []
  | g :: gs => g ++ [0x2E] ++ dotJoin gs

/-- The JSON object openers of a group chain: one `"name":\x7b` per level. -/
def nestOpen : List (List Nat) → List Nat
  | [] => []
  | g :: gs => [0x22] ++ escaperSpec g ++ ascii "\":\x7b" ++ nestOpen gs

theorem ascii_colon_brace : ascii "\":\x7b" = [0x22, 0x3A, 0x7B] := rfl

theorem addComma_after_open (x : List Nat) :
    jsonBuilder.addComma (x ++ [0x7B]) = x ++ [0x7B] := by
  rw [addComma_eq_commaFor]
  unfold commaFor
  rw [lastByte_append x [0x7B] (by simp)]
  rw [if_neg (by simp [lastByte])]
  simp

theorem textLeaf_eq (opts : colorOptions) (buf pfx k : List Nat) (v : Value)
    (hv : ∀ g, v ≠ Value.vgroup g) (hz : ¬(k = [] ∧ v = Value.vnil)) :
    ColorizedHandler.appendAttr opts buf pfx (Attr.mk k v) =
      ColorizedHandler.writeValue
        ((if pfx.length > 0 then buf ++ [0x20] ++ opts.KeyColor ++ pfx
          else buf ++ [0x20] ++ opts.KeyColor) ++
          (if k = [] then ascii "!EMPTY_KEY" else k) ++ [0x3D] ++ reset ++
          opts.ValueColor) v ++ reset := by
  cases v with
  | vgroup g => exact absurd rfl (hv g)
  | vnil =>
    cases k with
    | nil => exact absurd ⟨rfl, rfl⟩ hz
    | cons c ks => exact textAppendAttr_vnil_cons opts buf pfx c ks
  | _ => exact textAppendAttr_leaf opts buf pfx k _ (by intro g h; cases h) (by intro h; cases h)

theorem jsonLeaf_eq (buf k : List Nat) (v : Value)
    (hv : ∀ g, v ≠ Value.vgroup g) (hz : ¬(k = [] ∧ v = Value.vnil)) :
    jsonBuilder.appendAttr buf (Attr.mk k v) =
      jsonBuilder.addComma buf ++ [0x22] ++
        (if k = [] then ascii "!EMPTY_KEY" else escaperSpec k) ++ ascii "\":" ++
        jsonBuilder.writeValue [] v := by
  have hbody : jsonBuilder.appendAttr buf (Attr.mk k v) =
      jsonBuilder.writeValue
        ((if k = [] then jsonBuilder.addComma buf ++ [0x22] ++ ascii "!EMPTY_KEY"
          else appendEscapedJSONString (jsonBuilder.addComma buf ++ [0x22]) k) ++
          ascii "\":") v := by
    cases v with
    | vgroup g => exact absurd rfl (hv g)
    | vnil =>
      cases k with
      | nil => exact absurd ⟨rfl, rfl⟩ hz
      | cons c ks => exact jsonAppendAttr_vnil_cons buf c ks
    | _ => exact jsonAppendAttr_leaf buf k _ (by intro g h; cases h) (by intro h; cases h)
  rw [hbody]
  split_ifs <;>
    (simp [appendEscapedJSONString_eq, jsonWriteValue_shift, jsonWriteValue_cons,
      List.append_assoc]
     try exact jsonWriteValue_append (ascii "\":") v)

theorem textNest_aux (gs : List (List Nat)) :
    ∀ (opts : colorOptions) (buf pfx k : List Nat) (v : Value),
      (∀ g ∈ gs, g ≠ []) → (∀ g, v ≠ Value.vgroup g) → ¬(k = [] ∧ v = Value.vnil) →
      ColorizedHandler.appendAttr opts buf pfx (nestAttr gs k v) =
        buf ++ [0x20] ++ opts.KeyColor ++ pfx ++ dotJoin gs ++
          (if k = [] then ascii "!EMPTY_KEY" else k) ++ [0x3D] ++ reset ++
          opts.ValueColor ++ ColorizedHandler.writeValue [] v ++ reset := by
  induction gs with
  | nil =>
    intro opts buf pfx k v hg hv hz
    rw [show nestAttr [] k v = Attr.mk k v from rfl]
    rw [textLeaf_eq opts buf pfx k v hv hz]
    rw [if_length_append]
    nth_rewrite 1 [textWriteValue_append]
    simp [dotJoin, List.append_assoc]
  | cons g gs ih =>
    intro opts buf pfx k v hg hv hz
    rw [show nestAttr (g :: gs) k v =
      Attr.mk g (Value.vgroup (AttrList.acons (nestAttr gs k v) AttrList.anil)) from rfl]
    rw [textAppendAttr_group]
    rw [if_pos (hg g (List.mem_cons_self g gs))]
    rw [textAppendAttrList_cons, textAppendAttrList_nil]
    rw [ih opts buf (pfx ++ g ++ [0x2E]) k v
      (fun x hx => hg x (List.mem_cons_of_mem g hx)) hv hz]
    simp [dotJoin, List.append_assoc]

theorem jsonNest_aux (gs : List (List Nat)) :
    ∀ (buf k : List Nat) (v : Value),
      (∀ g ∈ gs, g ≠ []) → (∀ g, v ≠ Value.vgroup g) → ¬(k = [] ∧ v = Value.vnil) →
      jsonBuilder.appendAttr buf (nestAttr gs k v) =
        jsonBuilder.addComma buf ++ nestOpen gs ++ [0x22] ++
          (if k = [] then ascii "!EMPTY_KEY" else escaperSpec k) ++ ascii "\":" ++
          jsonBuilder.writeValue [] v ++ List.replicate gs.length 0x7D := by
  induction gs with
  | nil =>
    intro buf k v hg hv hz
    rw [show nestAttr [] k v = Attr.mk k v from rfl]
    rw [jsonLeaf_eq buf k v hv hz]
    simp [nestOpen, List.append_assoc]
  | cons g gs ih =>
    intro buf k v hg hv hz
    rw [show nestAttr (g :: gs) k v =
      Attr.mk g (Value.vgroup (AttrList.acons (nestAttr gs k v) AttrList.anil)) from rfl]
    rw [jsonAppendAttr_group_cons]
    rw [if_pos (by exact hg g (List.mem_cons_self g gs))]
    rw [jsonAppendAttrList_cons, jsonAppendAttrList_nil]
    rw [ih (appendEscapedJSONString (jsonBuilder.addComma buf ++ [0x22]) g ++
        ascii "\":\x7b") k v
      (fun x hx => hg x (List.mem_cons_of_mem g hx)) hv hz]
    rw [appendEscapedJSONString_eq]
    rw [ascii_colon_brace]
    rw [show jsonBuilder.addComma buf ++ [0x22] ++ escaperSpec g ++ [0x22, 0x3A, 0x7B] =
      (jsonBuilder.addComma buf ++ [0x22] ++ escaperSpec g ++ [0x22, 0x3A]) ++ [0x7B] from by
        simp]
    rw [addComma_after_open]
    simp [nestOpen, ascii_colon_brace, List.replicate_succ', List.append_assoc]

theorem dotJoin_count (gs : List (List Nat)) (h : ∀ g ∈ gs, ¬ 0x2E ∈ g) :
    (dotJoin gs).count 0x2E = gs.length := by
  induction gs with
  | nil => rfl
  | cons g gs ih =>
    unfold dotJoin
    rw [List.count_append, List.count_append]
    rw [List.count_eq_zero.mpr (h g (List.mem_cons_self g gs))]
    rw [ih (fun x hx => h x (List.mem_cons_of_mem g hx))]
    simp
    try omega

/-- Claim C7: an attribute nested under d group levels renders in Text as a
leaf key preceded by exactly d dot-terminated prefix segments (one per
level, `WithGroup` levels entering through the handler prefix, which
`WithGroup` extends by `name.`), and in JSON as a leaf inside exactly d
opened-and-closed nested objects (`WithGroup` levels entering through the
precomputed opener and the depth counter, whose braces `buildLog` closes at
the end). -/
theorem claimC7 :
    (∀ (opts : colorOptions) (buf pfx k : List Nat) (v : Value)
        (gs : List (List Nat)),
      (∀ g ∈ gs, g ≠ []) → (∀ g, v ≠ Value.vgroup g) → ¬(k = [] ∧ v = Value.vnil) →
      ColorizedHandler.appendAttr opts buf pfx (nestAttr gs k v) =
        buf ++ [0x20] ++ opts.KeyColor ++ pfx ++ dotJoin gs ++
          (if k = [] then ascii "!EMPTY_KEY" else k) ++ [0x3D] ++ reset ++
          opts.ValueColor ++ ColorizedHandler.writeValue [] v ++ reset) ∧
    (∀ gs : List (List Nat), (∀ g ∈ gs, ¬ 0x2E ∈ g) →
      (dotJoin gs).count 0x2E = gs.length) ∧
    (∀ (buf k : List Nat) (v : Value) (gs : List (List Nat)),
      (∀ g ∈ gs, g ≠ []) → (∀ g, v ≠ Value.vgroup g) → ¬(k = [] ∧ v = Value.vnil) →
      jsonBuilder.appendAttr buf (nestAttr gs k v) =
        jsonBuilder.addComma buf ++ nestOpen gs ++ [0x22] ++
          (if k = [] then ascii "!EMPTY_KEY" else escaperSpec k) ++ ascii "\":" ++
          jsonBuilder.writeValue [] v ++ List.replicate gs.length 0x7D) ∧
    (∀ (h : ColorizedHandler) (name : List Nat), name ≠ [] →
      (ColorizedHandler.WithGroup h name).groupPfx = h.groupPfx ++ name ++ [0x2E]) ∧
    (∀ (buf : List Nat) (rec : Record) (p : List Nat) (d : Nat),
      ∃ front, jsonBuilder.buildLog buf rec p d =
        front ++ List.replicate d 0x7D ++ [0x7D, 0x0A]) := by
  refine ⟨?_, dotJoin_count, ?_, ?_, ?_⟩
  · intro opts buf pfx k v gs hg hv hz
    exact textNest_aux gs opts buf pfx k v hg hv hz
  · intro buf k v gs hg hv hz
    exact jsonNest_aux gs buf k v hg hv hz
  · intro h name hn
    unfold ColorizedHandler.WithGroup
    rw [if_neg (by simp [hn])]
  · intro buf rec p d
    unfold jsonBuilder.buildLog
    exact ⟨_, rfl⟩

/-- Witness for claim C7 at the spec's scenario: `group\x7bkey="val"\x7d`
nested under `WithGroup("g")` — text key `g.group.key=val`, JSON
`"g":\x7b"group":\x7b"key":"val"\x7d\x7d` via the handler prefix and one
nested object per level. -/
theorem claimC7_witness :
    ColorizedHandler.appendAttr ⟨blue, magenta, noColor⟩ [] (ascii "g.")
        (nestAttr [ascii "group"] (ascii "key") (Value.vstr (ascii "val"))) =
      [] ++ [0x20] ++ magenta ++ ascii "g." ++ dotJoin [ascii "group"] ++
        (if ascii "key" = [] then ascii "!EMPTY_KEY" else ascii "key") ++ [0x3D] ++
        reset ++ noColor ++
        ColorizedHandler.writeValue [] (Value.vstr (ascii "val")) ++ reset ∧
    jsonBuilder.appendAttr [0x7B]
        (nestAttr [ascii "group"] (ascii "key") (Value.vstr (ascii "val"))) =
      jsonBuilder.addComma [0x7B] ++ nestOpen [ascii "group"] ++ [0x22] ++
        (if ascii "key" = [] then ascii "!EMPTY_KEY"
          else escaperSpec (ascii "key")) ++ ascii "\":" ++
        jsonBuilder.writeValue [] (Value.vstr (ascii "val")) ++
        List.replicate [ascii "group"].length 0x7D :=
  ⟨claimC7.1 ⟨blue, magenta, noColor⟩ [] (ascii "g.") (ascii "key")
      (Value.vstr (ascii "val")) [ascii "group"]
      (by intro g hx; simp at hx; subst hx; simp [ascii])
      (by intro g h; cases h) (by intro h; cases h.2),
    claimC7.2.2.1 [0x7B] (ascii "key") (Value.vstr (ascii "val")) [ascii "group"]
      (by intro g hx; simp at hx; subst hx; simp [ascii])
      (by intro g h; cases h) (by intro h; cases h.2)⟩

/-! ## Claim C4: attribute rendering order -/

theorem view_ofList {α : Type} (l : List α) :
    GoSlice.view (GoSlice.ofList l) = l := by
  simp [GoSlice.view, GoSlice.ofList]

theorem addComma_nil : jsonBuilder.addComma [] = [] := rfl

/-- Buffers whose last byte makes `addComma` insert a comma. -/
def sepFree (l : List Nat) : Prop :=
  l ≠ [] ∧ lastByte l ≠ 0x7B ∧ lastByte l ≠ 0x2C ∧ lastByte l ≠ 0x5B

theorem sepFree_append (x z : List Nat) (h : sepFree z) : sepFree (x ++ z) := by
  obtain ⟨h1, h2, h3, h4⟩ := h
  refine ⟨by simp [h1], ?_, ?_, ?_⟩ <;> rw [lastByte_append x z h1] <;> assumption

theorem addComma_sepFree (l : List Nat) (h : sepFree l) :
    jsonBuilder.addComma l = l ++ [0x2C] := by
  obtain ⟨h1, h2, h3, h4⟩ := h
  have hl : l.length > 0 := by
    cases l
    · exact absurd rfl h1
    · simp
  rw [addComma_eq_commaFor]
  unfold commaFor
  rw [if_pos ⟨hl, h2, h3, h4⟩]

theorem addComma_after_comma (x : List Nat) :
    jsonBuilder.addComma (x ++ [0x2C]) = x ++ [0x2C] := by
  rw [addComma_eq_commaFor]
  unfold commaFor
  rw [lastByte_append x [0x2C] (by simp)]
  rw [if_neg (by simp [lastByte])]
  simp

theorem natDec_ne_nil (n : Nat) : natDec n ≠ [] := by
  rw [natDec]
  split <;> simp

theorem natDec_last (n : Nat) :
    0x30 ≤ lastByte (natDec n) ∧ lastByte (natDec n) ≤ 0x39 := by
  by_cases h : n < 10
  · rw [show natDec n = [0x30 + n] from by rw [natDec]; rw [if_pos h]]
    rw [show lastByte [0x30 + n] = 0x30 + n from rfl]
    omega
  · rw [show natDec n = natDec (n / 10) ++ [0x30 + n % 10] from by
      rw [natDec]; rw [if_neg h]]
    rw [lastByte_append _ _ (by simp)]
    rw [show lastByte [0x30 + n % 10] = 0x30 + n % 10 from rfl]
    omega

theorem intDec_last (i : Int) :
    intDec i ≠ [] ∧ 0x30 ≤ lastByte (intDec i) ∧ lastByte (intDec i) ≤ 0x39 := by
  unfold intDec
  split
  · refine ⟨by simp, ?_⟩
    rw [show (0x2D : Nat) :: natDec i.natAbs = [0x2D] ++ natDec i.natAbs from rfl,
      lastByte_append _ _ (natDec_ne_nil _)]
    exact natDec_last _
  · exact ⟨natDec_ne_nil _, natDec_last _⟩

theorem jsonWriteValue_sepFree (v : Value) :
    sepFree (jsonBuilder.writeValue [] v) := by
  cases v with
  | vstr s =>
    simp only [jsonBuilder.writeValue, jsonBuilder.appendString]
    refine ⟨by simp, ?_, ?_, ?_⟩ <;> rw [lastByte_append _ [0x22] (by simp)] <;> decide
  | vint i =>
    simp only [jsonBuilder.writeValue, List.nil_append]
    obtain ⟨h1, h2, h3⟩ := intDec_last i
    exact ⟨h1, by omega, by omega, by omega⟩
  | vuint n =>
    simp only [jsonBuilder.writeValue, List.nil_append]
    obtain ⟨h2, h3⟩ := natDec_last n
    exact ⟨natDec_ne_nil n, by omega, by omega, by omega⟩
  | vbool b =>
    cases b <;> exact ⟨by decide, by decide, by decide, by decide⟩
  | vnil =>
    exact ⟨by decide, by decide, by decide, by decide⟩
  | vgroup g =>
    simp only [jsonBuilder.writeValue, List.nil_append]
    exact ⟨by decide, by decide, by decide, by decide⟩

/-- The attributes the JSON builder renders as an object member of their own:
not the zero attr, not an empty group, and not an unkeyed group (whose
children are spliced as siblings instead). -/
def attrRendered : Attr → Bool
  | Attr.mk _ (Value.vgroup AttrList.anil) => false
  | Attr.mk k (Value.vgroup (AttrList.acons _ _)) => !k.isEmpty
  | Attr.mk k Value.vnil => !k.isEmpty
  | Attr.mk _ _ => true

def allRendered : AttrList → Bool
  | AttrList.anil => true
  | AttrList.acons a r => attrRendered a && allRendered r

def allRenderedL (l : List Attr) : Bool := l.all attrRendered

/-- A rendered attribute reads the buffer only through `addComma`: its bytes
are the buffer, the comma the buffer's last byte asks for, then the
attribute's own bytes. -/
theorem jsonAppendAttr_norm (a : Attr) (ha : attrRendered a = true) (buf : List Nat) :
    jsonBuilder.appendAttr buf a =
      jsonBuilder.addComma buf ++ jsonBuilder.appendAttr [] a := by
  cases a with
  | mk key val =>
    cases val with
    | vgroup g =>
      cases g with
      | anil => simp [attrRendered] at ha
      | acons c r =>
        have hk : key ≠ [] := by
          cases key
          · simp [attrRendered] at ha
          · simp
        rw [jsonAppendAttr_group_cons buf key c r, jsonAppendAttr_group_cons [] key c r]
        rw [if_pos hk, if_pos hk]
        rw [appendEscapedJSONString_eq, appendEscapedJSONString_eq]
        simp only [addComma_nil, List.nil_append, List.append_assoc]
        rw [(jsonAppendAttrList_laws (AttrList.acons c r)).2 (jsonBuilder.addComma buf)
          ([0x22] ++ (escaperSpec key ++ ascii "\":\x7b")) (by simp)]
        simp
    | vnil =>
      cases key with
      | nil => simp [attrRendered] at ha
      | cons k ks =>
        rw [jsonAppendAttr_vnil_cons buf k ks, jsonAppendAttr_vnil_cons [] k ks]
        rw [if_neg (by simp), if_neg (by simp)]
        simp only [addComma_nil]
        simp [appendEscapedJSONString_eq, jsonWriteValue_shift, List.append_assoc]
    | vstr s =>
      rw [jsonAppendAttr_leaf buf key _ (by intro g h; cases h) (by intro h; cases h),
        jsonAppendAttr_leaf [] key _ (by intro g h; cases h) (by intro h; cases h)]
      simp only [addComma_nil]
      split_ifs <;>
        simp [appendEscapedJSONString_eq, jsonWriteValue_shift, List.append_assoc]
    | vint i =>
      rw [jsonAppendAttr_leaf buf key _ (by intro g h; cases h) (by intro h; cases h),
        jsonAppendAttr_leaf [] key _ (by intro g h; cases h) (by intro h; cases h)]
      simp only [addComma_nil]
      split_ifs <;>
        simp [appendEscapedJSONString_eq, jsonWriteValue_shift, List.append_assoc]
    | vuint m =>
      rw [jsonAppendAttr_leaf buf key _ (by intro g h; cases h) (by intro h; cases h),
        jsonAppendAttr_leaf [] key _ (by intro g h; cases h) (by intro h; cases h)]
      simp only [addComma_nil]
      split_ifs <;>
        simp [appendEscapedJSONString_eq, jsonWriteValue_shift, List.append_assoc]
    | vbool b =>
      rw [jsonAppendAttr_leaf buf key _ (by intro g h; cases h) (by intro h; cases h),
        jsonAppendAttr_leaf [] key _ (by intro g h; cases h) (by intro h; cases h)]
      simp only [addComma_nil]
      split_ifs <;>
        simp [appendEscapedJSONString_eq, jsonWriteValue_shift, List.append_assoc]

/-- A rendered attribute's own bytes never end in an opener or separator. -/
theorem jsonSolo_sepFree (a : Attr) (ha : attrRendered a = true) :
    sepFree (jsonBuilder.appendAttr [] a) := by
  cases a with
  | mk key val =>
    cases val with
    | vgroup g =>
      cases g with
      | anil => simp [attrRendered] at ha
      | acons c r =>
        have hk : key ≠ [] := by
          cases key
          · simp [attrRendered] at ha
          · simp
        rw [jsonAppendAttr_group_cons [] key c r, if_pos hk]
        exact sepFree_append _ [0x7D] ⟨by decide, by decide, by decide, by decide⟩
    | vnil =>
      cases key with
      | nil => simp [attrRendered] at ha
      | cons k ks =>
        rw [jsonAppendAttr_vnil_cons [] k ks]
        rw [jsonWriteValue_append]
        exact sepFree_append _ _ (jsonWriteValue_sepFree _)
    | vstr s =>
      rw [jsonAppendAttr_leaf [] key _ (by intro g h; cases h) (by intro h; cases h)]
      rw [jsonWriteValue_append]
      exact sepFree_append _ _ (jsonWriteValue_sepFree _)
    | vint i =>
      rw [jsonAppendAttr_leaf [] key _ (by intro g h; cases h) (by intro h; cases h)]
      rw [jsonWriteValue_append]
      exact sepFree_append _ _ (jsonWriteValue_sepFree _)
    | vuint m =>
      rw [jsonAppendAttr_leaf [] key _ (by intro g h; cases h) (by intro h; cases h)]
      rw [jsonWriteValue_append]
      exact sepFree_append _ _ (jsonWriteValue_sepFree _)
    | vbool b =>
      rw [jsonAppendAttr_leaf [] key _ (by intro g h; cases h) (by intro h; cases h)]
      rw [jsonWriteValue_append]
      exact sepFree_append _ _ (jsonWriteValue_sepFree _)

/-- The bytes a rendered record-attribute list adds after a `sepFree` buffer:
a comma then the member's own bytes, member by member. -/
def chunks : AttrList → List Nat
  | AttrList.anil => []
  | AttrList.acons a r => 0x2C :: (jsonBuilder.appendAttr [] a ++ chunks r)

/-- Same, for the context-attribute loop's `List`-shaped input. -/
def chunksL : List Attr → List Nat
  | [] => []
  | a :: r => 0x2C :: (jsonBuilder.appendAttr [] a ++ chunksL r)

theorem jsonAppendAttrList_norm :
    ∀ (l : AttrList), allRendered l = true → ∀ buf, sepFree buf →
      jsonBuilder.appendAttrList buf l = buf ++ chunks l ∧
      sepFree (jsonBuilder.appendAttrList buf l)
  | AttrList.anil, _, buf, hb => by
    rw [jsonAppendAttrList_nil]
    exact ⟨by simp [chunks], hb⟩
  | AttrList.acons a r, hl, buf, hb => by
    have hra : attrRendered a = true ∧ allRendered r = true := by
      simp only [allRendered, Bool.and_eq_true] at hl
      exact hl
    have hstep : jsonBuilder.appendAttr buf a =
        buf ++ (0x2C :: jsonBuilder.appendAttr [] a) := by
      rw [jsonAppendAttr_norm a hra.1 buf, addComma_sepFree buf hb]
      simp
    have hsf : sepFree (jsonBuilder.appendAttr buf a) := by
      rw [hstep]
      exact sepFree_append _ _ (sepFree_append [0x2C] _ (jsonSolo_sepFree a hra.1))
    have hrec := jsonAppendAttrList_norm r hra.2 (jsonBuilder.appendAttr buf a) hsf
    rw [jsonAppendAttrList_cons]
    refine ⟨?_, hrec.2⟩
    rw [hrec.1, hstep]
    simp [chunks]
termination_by l => sizeOf l

theorem appendCtxAttrs_norm :
    ∀ (l : List Attr), allRenderedL l = true → ∀ buf, sepFree buf →
      jsonBuilder.appendCtxAttrs buf l = buf ++ chunksL l ∧
      sepFree (jsonBuilder.appendCtxAttrs buf l)
  | [], _, buf, hb => by
    rw [show jsonBuilder.appendCtxAttrs buf [] = buf from rfl]
    exact ⟨by simp [chunksL], hb⟩
  | a :: r, hl, buf, hb => by
    have hra : attrRendered a = true ∧ allRenderedL r = true := by
      simp only [allRenderedL, List.all_cons, Bool.and_eq_true] at hl
      exact hl
    have hstep : jsonBuilder.appendAttr (jsonBuilder.addComma buf) a =
        buf ++ (0x2C :: jsonBuilder.appendAttr [] a) := by
      rw [addComma_sepFree buf hb]
      rw [jsonAppendAttr_norm a hra.1 (buf ++ [0x2C]), addComma_after_comma buf]
      simp
    have hsf : sepFree (jsonBuilder.appendAttr (jsonBuilder.addComma buf) a) := by
      rw [hstep]
      exact sepFree_append _ _ (sepFree_append [0x2C] _ (jsonSolo_sepFree a hra.1))
    have hrec := appendCtxAttrs_norm r hra.2 _ hsf
    rw [show jsonBuilder.appendCtxAttrs buf (a :: r) =
      jsonBuilder.appendCtxAttrs
        (jsonBuilder.appendAttr (jsonBuilder.addComma buf) a) r from rfl]
    refine ⟨?_, hrec.2⟩
    rw [hrec.1, hstep]
    simp [chunksL]
termination_by l => sizeOf l

/-- The fixed header of a JSON log line, up to the closing quote of the
message field. -/
def headerJson (record : Record) : List Nat :=
  ascii "\x7b\"time\":\"" ++ fmtDateTime record.time ++ ascii "\",\"level\":\"" ++
    levelBytes record.level ++ ascii "\",\"msg\":\"" ++
    (if record.message.isEmpty then ascii "!EMPTY_MESSAGE" else record.message) ++ [0x22]

theorem headerJson_sepFree (record : Record) : sepFree (headerJson record) := by
  unfold headerJson
  refine ⟨by simp, ?_, ?_, ?_⟩ <;> rw [lastByte_append _ [0x22] (by simp)] <;> decide

theorem jsonHeader_chain (record : Record) :
    (if record.message.isEmpty
      then ascii "\x7b\"time\":\"" ++ fmtDateTime record.time ++ ascii "\",\"level\":\"" ++
        levelBytes record.level ++ ascii "\",\"msg\":\"" ++ ascii "!EMPTY_MESSAGE"
      else ascii "\x7b\"time\":\"" ++ fmtDateTime record.time ++ ascii "\",\"level\":\"" ++
        levelBytes record.level ++ ascii "\",\"msg\":\"" ++ record.message) ++ [0x22] =
    headerJson record := by
  unfold headerJson
  split_ifs <;> simp [List.append_assoc]

theorem jsonAttrsIf_norm (l : AttrList) (hl : allRendered l = true)
    (buf : List Nat) (hb : sepFree buf) :
    (if l.length > 0 then jsonBuilder.appendAttrList buf l else buf) =
      buf ++ chunks l := by
  cases l with
  | anil =>
    rw [show AttrList.length AttrList.anil = 0 from rfl]
    simp [jsonAppendAttrList_nil, chunks]
  | acons a r =>
    rw [if_pos (by
      rw [show AttrList.length (AttrList.acons a r) = r.length + 1 from rfl]
      omega)]
    exact (jsonAppendAttrList_norm (AttrList.acons a r) hl buf hb).1

/-- `part_004`'s JSON `buildLog` renders the context attributes first, then
the precomputed bytes after a comma, then the record attributes, then the
closers. -/
theorem jsonBuildLog_order (ctxAttrs : List Attr) (record : Record)
    (p : List Nat) (d : Nat)
    (hctx : allRenderedL ctxAttrs = true)
    (hrec : allRendered record.attrs = true)
    (hp : p = [] ∨ sepFree p) :
    jsonBuilder.buildLogCtx (some ⟨some (GoSlice.ofList ctxAttrs)⟩) [] record p d =
      headerJson record ++ chunksL ctxAttrs ++
        (if p.isEmpty then [] else 0x2C :: p) ++
        chunks record.attrs ++ List.replicate d 0x7D ++ [0x7D, 0x0A] := by
  simp only [jsonBuilder.buildLogCtx, view_ofList, List.nil_append]
  rw [jsonHeader_chain record]
  obtain ⟨hc1, hc2⟩ :=
    appendCtxAttrs_norm ctxAttrs hctx (headerJson record) (headerJson_sepFree record)
  rw [hc1] at hc2
  rw [hc1]
  rcases hp with hp | hp
  · subst hp
    have hpres : ∀ b : List Nat,
        (if ([] : List Nat).length > 0 then jsonBuilder.addComma b ++ ([] : List Nat)
          else b) = b := by
      intro b
      simp
    rw [hpres]
    rw [jsonAttrsIf_norm record.attrs hrec _ hc2]
    simp [List.append_assoc]
  · have hpne : p ≠ [] := hp.1
    have hplen : p.length > 0 := by
      cases p
      · exact absurd rfl hpne
      · simp
    rw [if_pos hplen]
    rw [addComma_sepFree _ hc2]
    have hsf3 : sepFree (headerJson record ++ chunksL ctxAttrs ++ [0x2C] ++ p) :=
      sepFree_append _ p hp
    rw [jsonAttrsIf_norm record.attrs hrec _ hsf3]
    have hie : p.isEmpty = false := by
      cases p
      · exact absurd rfl hpne
      · rfl
    rw [hie]
    simp [List.append_assoc]

/-! Text side: `Handle` appends the context attributes to the record's own
list, so they render after the record attributes. -/

theorem textAttrsIf (opts : colorOptions) (buf pfx : List Nat) (l : AttrList) :
    (if l.length > 0 then ColorizedHandler.appendAttrList opts buf pfx l else buf) =
      ColorizedHandler.appendAttrList opts buf pfx l := by
  cases l with
  | anil =>
    rw [show AttrList.length AttrList.anil = 0 from rfl]
    simp [textAppendAttrList_nil]
  | acons a r =>
    rw [if_pos (by
      rw [show AttrList.length (AttrList.acons a r) = r.length + 1 from rfl]
      omega)]

theorem textAppendAttrList_split :
    ∀ (l1 : AttrList) (opts : colorOptions) (buf pfx : List Nat) (l2 : AttrList),
      ColorizedHandler.appendAttrList opts buf pfx (AttrList.append l1 l2) =
        ColorizedHandler.appendAttrList opts
          (ColorizedHandler.appendAttrList opts buf pfx l1) pfx l2
  | AttrList.anil, opts, buf, pfx, l2 => by
    simp only [AttrList.append]
    rw [textAppendAttrList_nil]
  | AttrList.acons a r, opts, buf, pfx, l2 => by
    simp only [AttrList.append]
    rw [textAppendAttrList_cons, textAppendAttrList_cons]
    exact textAppendAttrList_split r opts _ pfx l2
termination_by l1 => sizeOf l1

/-- The fixed header of a text log line: colorized time, level and message. -/
def headerText (h : ColorizedHandler) (record : Record) : List Nat :=
  h.colorOpts.TimeColor ++ fmtTimeOnly record.time ++ reset ++ ascii " | " ++
    levelColor record.level ++ levelBytes record.level ++ reset ++ ascii " | " ++
    levelColor record.level ++ record.message ++ reset

/-- The Text `Handle` of `src/logger.go`: header, precomputed attributes,
record attributes, then the context attributes — the context renders last. -/
theorem textHandle_order (h : ColorizedHandler) (ctxAttrs : List Attr)
    (record : Record) (hcl : h.shared.closed = false) :
    ColorizedHandler.Handle h (some ⟨some (GoSlice.ofList ctxAttrs)⟩) record =
      some (headerText h record ++ h.precomputed ++
        ColorizedHandler.appendAttrList h.colorOpts [] h.groupPfx record.attrs ++
        ColorizedHandler.appendAttrList h.colorOpts [] h.groupPfx
          (AttrList.ofList ctxAttrs) ++ [0x0A]) := by
  unfold ColorizedHandler.Handle
  rw [if_neg (by simp [hcl])]
  show some (ColorizedHandler.buildLog h []
    { record with
        attrs :=
          AttrList.append record.attrs
            (AttrList.ofList (GoSlice.view (GoSlice.ofList ctxAttrs))) }) = _
  rw [view_ofList]
  simp only [ColorizedHandler.buildLog]
  rw [textAttrsIf, textAppendAttrList_split]
  rw [if_length_append]
  rw [textAppendAttrList_shift (AttrList.ofList ctxAttrs)]
  rw [textAppendAttrList_shift record.attrs]
  simp [headerText, List.append_assoc]

/-- The rendering order claim C4 states for the Text variant, following its
words: context attributes first, then precomputed, then record attributes. -/
def textClaimOrder (h : ColorizedHandler) (ctxAttrs : List Attr)
    (record : Record) : List Nat :=
  headerText h record ++
    ColorizedHandler.appendAttrList h.colorOpts [] h.groupPfx
      (AttrList.ofList ctxAttrs) ++
    h.precomputed ++
    ColorizedHandler.appendAttrList h.colorOpts [] h.groupPfx record.attrs ++ [0x0A]

/-- Counterexample to claim C4: the Text variant renders the context
attributes LAST (`Handle` appends them to the record's attribute list), not
first — with context attr `c="1"` and record attr `r="2"` the produced line
has ` r=2` before ` c=1`, the claim's order the reverse. -/
theorem claimC4_counterexample :
    ColorizedHandler.Handle (ColorizedHandler.NewTextHandler 0 false)
        (some ⟨some (GoSlice.ofList [Attr.mk [0x63] (Value.vstr [0x31])])⟩)
        ⟨⟨2025, 10, 11, 3, 4, 5⟩, 0, [0x6D],
          AttrList.acons (Attr.mk [0x72] (Value.vstr [0x32])) AttrList.anil⟩ ≠
      some (textClaimOrder (ColorizedHandler.NewTextHandler 0 false)
        [Attr.mk [0x63] (Value.vstr [0x31])]
        ⟨⟨2025, 10, 11, 3, 4, 5⟩, 0, [0x6D],
          AttrList.acons (Attr.mk [0x72] (Value.vstr [0x32])) AttrList.anil⟩) := by
  rw [textHandle_order _ _ _ rfl]
  unfold textClaimOrder
  intro hcon
  have h2 := Option.some.inj hcon
  simp only [List.append_assoc] at h2
  have h3 := List.append_cancel_left h2
  revert h3
  decide

/-- Claim C4 (corrected): the claimed order holds for the JSON variant of
`part_004` — context attributes, then the precomputed bytes, then the
record attributes — but NOT for the Text variant: `Handle` appends the
context attributes to the record's own list, so they render last, after
the precomputed and record attributes. -/
theorem claimC4 :
    (∀ (h : ColorizedHandler) (ctxAttrs : List Attr) (record : Record),
      h.shared.closed = false →
      ColorizedHandler.Handle h (some ⟨some (GoSlice.ofList ctxAttrs)⟩) record =
        some (headerText h record ++ h.precomputed ++
          ColorizedHandler.appendAttrList h.colorOpts [] h.groupPfx record.attrs ++
          ColorizedHandler.appendAttrList h.colorOpts [] h.groupPfx
            (AttrList.ofList ctxAttrs) ++ [0x0A])) ∧
    (∀ (ctxAttrs : List Attr) (record : Record) (p : List Nat) (d : Nat),
      allRenderedL ctxAttrs = true → allRendered record.attrs = true →
      (p = [] ∨ sepFree p) →
      jsonBuilder.buildLogCtx (some ⟨some (GoSlice.ofList ctxAttrs)⟩) [] record p d =
        headerJson record ++ chunksL ctxAttrs ++
          (if p.isEmpty then [] else 0x2C :: p) ++
          chunks record.attrs ++ List.replicate d 0x7D ++ [0x7D, 0x0A]) :=
  ⟨fun h ctxAttrs record hcl => textHandle_order h ctxAttrs record hcl,
   fun ctxAttrs record p d h1 h2 h3 => jsonBuildLog_order ctxAttrs record p d h1 h2 h3⟩

/-- Witness for claim C4: concrete text and JSON lines with context attr
`c="1"`, record attr `r="2"`, and (JSON) precomputed byte `p` under one open
group. -/
theorem claimC4_witness :
    (ColorizedHandler.Handle (ColorizedHandler.NewTextHandler 0 false)
        (some ⟨some (GoSlice.ofList [Attr.mk [0x63] (Value.vstr [0x31])])⟩)
        ⟨⟨2025, 10, 11, 3, 4, 5⟩, 0, [0x6D],
          AttrList.acons (Attr.mk [0x72] (Value.vstr [0x32])) AttrList.anil⟩ =
      some (headerText (ColorizedHandler.NewTextHandler 0 false)
          ⟨⟨2025, 10, 11, 3, 4, 5⟩, 0, [0x6D],
            AttrList.acons (Attr.mk [0x72] (Value.vstr [0x32])) AttrList.anil⟩ ++
        [] ++
        ColorizedHandler.appendAttrList ⟨blue, magenta, noColor⟩ [] []
          (AttrList.acons (Attr.mk [0x72] (Value.vstr [0x32])) AttrList.anil) ++
        ColorizedHandler.appendAttrList ⟨blue, magenta, noColor⟩ [] []
          (AttrList.ofList [Attr.mk [0x63] (Value.vstr [0x31])]) ++ [0x0A])) ∧
    (jsonBuilder.buildLogCtx
        (some ⟨some (GoSlice.ofList [Attr.mk [0x63] (Value.vstr [0x31])])⟩) []
        ⟨⟨2025, 10, 11, 3, 4, 5⟩, 0, [0x6D],
          AttrList.acons (Attr.mk [0x72] (Value.vstr [0x32])) AttrList.anil⟩ [0x70] 1 =
      headerJson ⟨⟨2025, 10, 11, 3, 4, 5⟩, 0, [0x6D],
          AttrList.acons (Attr.mk [0x72] (Value.vstr [0x32])) AttrList.anil⟩ ++
        chunksL [Attr.mk [0x63] (Value.vstr [0x31])] ++
        (0x2C :: [0x70]) ++
        chunks (AttrList.acons (Attr.mk [0x72] (Value.vstr [0x32])) AttrList.anil) ++
        List.replicate 1 0x7D ++ [0x7D, 0x0A]) :=
  ⟨claimC4.1 (ColorizedHandler.NewTextHandler 0 false)
      [Attr.mk [0x63] (Value.vstr [0x31])]
      ⟨⟨2025, 10, 11, 3, 4, 5⟩, 0, [0x6D],
        AttrList.acons (Attr.mk [0x72] (Value.vstr [0x32])) AttrList.anil⟩ rfl,
   claimC4.2 [Attr.mk [0x63] (Value.vstr [0x31])]
      ⟨⟨2025, 10, 11, 3, 4, 5⟩, 0, [0x6D],
        AttrList.acons (Attr.mk [0x72] (Value.vstr [0x32])) AttrList.anil⟩ [0x70] 1
      (by decide) (by decide)
      (Or.inr ⟨by decide, by decide, by decide, by decide⟩)⟩

/-! ## Claim C1: what goes through the Escaper -/

theorem jsonHeader_chain_buf (buf : List Nat) (record : Record) :
    (if record.message.isEmpty
      then buf ++ ascii "\x7b\"time\":\"" ++ fmtDateTime record.time ++
        ascii "\",\"level\":\"" ++ levelBytes record.level ++ ascii "\",\"msg\":\"" ++
        ascii "!EMPTY_MESSAGE"
      else buf ++ ascii "\x7b\"time\":\"" ++ fmtDateTime record.time ++
        ascii "\",\"level\":\"" ++ levelBytes record.level ++ ascii "\",\"msg\":\"" ++
        record.message) ++ [0x22] =
    buf ++ headerJson record := by
  unfold headerJson
  split_ifs <;> simp [List.append_assoc]

/-- `buildLog` (first revision) always emits the fixed header `headerJson` —
whose message bytes are embedded verbatim, with the `!EMPTY_MESSAGE`
placeholder on an empty message — directly after the caller's buffer. -/
theorem jsonBuildLog_header (buf : List Nat) (record : Record) (p : List Nat)
    (d : Nat) :
    ∃ tail, jsonBuilder.buildLog buf record p d = buf ++ headerJson record ++ tail := by
  simp only [jsonBuilder.buildLog]
  rw [jsonHeader_chain_buf buf record]
  obtain ⟨t1, ht1⟩ : ∃ t1,
      (if p.length > 0 then
        jsonBuilder.addComma (buf ++ headerJson record) ++ p
      else buf ++ headerJson record) = (buf ++ headerJson record) ++ t1 := by
    split_ifs
    · rw [addComma_eq_commaFor]
      exact ⟨commaFor (buf ++ headerJson record) ++ p, by simp⟩
    · exact ⟨[], by simp⟩
  rw [ht1]
  obtain ⟨t2, ht2⟩ : ∃ t2,
      (if record.attrs.length > 0 then
        jsonBuilder.appendAttrList ((buf ++ headerJson record) ++ t1) record.attrs
      else (buf ++ headerJson record) ++ t1) = ((buf ++ headerJson record) ++ t1) ++ t2 := by
    split_ifs
    · exact (jsonAppendAttrList_laws record.attrs).1 _
    · exact ⟨[], by simp⟩
  rw [ht2]
  exact ⟨t1 ++ t2 ++ List.replicate d 0x7D ++ [0x7D, 0x0A], by simp⟩

/-- Follows claim C1's words for the message: the same line layout as
`buildLog`, but with the message passed through the Escaper before being
embedded (an empty message still renders the placeholder). -/
def jsonClaimBuildLog (buf : List Nat) (record : Record) (precomputed : List Nat)
    (depth : Nat) : List Nat :=
  let buf := buf ++ ascii "\x7b\"time\":\""
  let buf := buf ++ fmtDateTime record.time
  let buf := buf ++ ascii "\",\"level\":\""
  let buf := buf ++ levelBytes record.level
  let buf := buf ++ ascii "\",\"msg\":\""
  let buf :=
    if record.message.isEmpty then buf ++ ascii "!EMPTY_MESSAGE"
    else appendEscapedJSONString buf record.message
  let buf := buf ++ [0x22]
  let buf := if precomputed.length > 0 then jsonBuilder.addComma buf ++ precomputed else buf
  let buf :=
    if record.attrs.length > 0 then jsonBuilder.appendAttrList buf record.attrs else buf
  let buf := buf ++ List.replicate depth 0x7D
  buf ++ [0x7D, 0x0A]

/-- Follows claim C1's words for `WithGroup` names: the group opener with the
name passed through the Escaper before being embedded. -/
def jsonClaimGroupPfx (oldPfx newPfx : List Nat) : List Nat :=
  jsonBuilder.addComma oldPfx ++ [0x22] ++ appendEscapedJSONString [] newPfx ++
    ascii "\":\x7b"

/-- Counterexample to claim C1: the JSON builder embeds the record message
and the `WithGroup` name verbatim (both appends are marked `dangerous` in the
source), not through the Escaper: on the message `a"` and the group name
`g"` the produced bytes differ from the claim's escaped rendering. -/
theorem claimC1_counterexample :
    jsonBuilder.buildLog [] ⟨⟨2025, 1, 2, 3, 4, 5⟩, 0, [0x61, 0x22], AttrList.anil⟩
        [] 0 ≠
      jsonClaimBuildLog [] ⟨⟨2025, 1, 2, 3, 4, 5⟩, 0, [0x61, 0x22], AttrList.anil⟩
        [] 0 ∧
    jsonBuilder.groupPfx [] [0x67, 0x22] ≠ jsonClaimGroupPfx [] [0x67, 0x22] := by
  constructor
  · have hesc : escaperSpec [0x61, 0x22] = [0x61, 0x5C, 0x22] := by
      simp +decide [escaperSpec, safeSet, escASCII]
    intro hcon
    simp only [jsonBuilder.buildLog, jsonClaimBuildLog, appendEscapedJSONString_eq,
      hesc, AttrList.length] at hcon
    simp at hcon
  · have hesc : escaperSpec [0x67, 0x22] = [0x67, 0x5C, 0x22] := by
      simp +decide [escaperSpec, safeSet, escASCII]
    simp only [jsonBuilder.groupPfx, jsonClaimGroupPfx, appendEscapedJSONString_eq,
      hesc, addComma_nil]
    decide

/-- Claim C1 (corrected): in the JSON variant, attribute keys (leaf and
group), and string values, are passed through the Escaper
(`appendEscapedJSONString`) before being embedded, and an empty message
renders the `!EMPTY_MESSAGE` placeholder inside the fixed header — but the
message itself and the names appended by `WithGroup` are embedded verbatim,
NOT escaped: the header embeds `record.message` raw (see `headerJson`), and
`groupPrefix` splices the raw name between the quote and `":`. -/
theorem claimC1 :
    (∀ (buf : List Nat) (record : Record) (p : List Nat) (d : Nat),
      ∃ tail, jsonBuilder.buildLog buf record p d = buf ++ headerJson record ++ tail) ∧
    (∀ (buf k : List Nat) (v : Value), (∀ g, v ≠ Value.vgroup g) →
      ¬(k = [] ∧ v = Value.vnil) →
      jsonBuilder.appendAttr buf (Attr.mk k v) =
        jsonBuilder.addComma buf ++ [0x22] ++
          (if k = [] then ascii "!EMPTY_KEY" else appendEscapedJSONString [] k) ++
          ascii "\":" ++ jsonBuilder.writeValue [] v) ∧
    (∀ s : List Nat,
      jsonBuilder.writeValue [] (Value.vstr s) =
        [0x22] ++ (if s.isEmpty then ascii "!EMPTY_VALUE"
          else appendEscapedJSONString [] s) ++ [0x22]) ∧
    (∀ (buf key : List Nat) (c : Attr) (r : AttrList), key ≠ [] →
      ∃ inner,
        jsonBuilder.appendAttr buf (Attr.mk key (Value.vgroup (AttrList.acons c r))) =
          jsonBuilder.addComma buf ++ [0x22] ++ appendEscapedJSONString [] key ++
            ascii "\":\x7b" ++ inner ++ [0x7D]) ∧
    (∀ oldPfx newPfx : List Nat,
      jsonBuilder.groupPfx oldPfx newPfx =
        jsonBuilder.addComma oldPfx ++ [0x22] ++ newPfx ++ ascii "\":\x7b") := by
  refine ⟨jsonBuildLog_header, ?_, ?_, ?_, fun oldPfx newPfx => rfl⟩
  · intro buf k v hv hz
    rw [jsonLeaf_eq buf k v hv hz]
    simp [appendEscapedJSONString_eq]
  · intro s
    simp only [jsonBuilder.writeValue, jsonBuilder.appendString]
    split_ifs <;> simp [appendEscapedJSONString_eq]
  · intro buf key c r hk
    rw [jsonAppendAttr_group_cons buf key c r, if_pos hk]
    obtain ⟨w, hw⟩ := (jsonAppendAttrList_laws (AttrList.acons c r)).1
      (appendEscapedJSONString (jsonBuilder.addComma buf ++ [0x22]) key ++ ascii "\":\x7b")
    rw [hw]
    refine ⟨w, ?_⟩
    simp [appendEscapedJSONString_eq, List.append_assoc]

/-- Witness for claim C1: a concrete leaf key and a concrete group name, both
escaped into the output. -/
theorem claimC1_witness :
    (jsonBuilder.appendAttr [0x7B] (Attr.mk [0x6B] (Value.vbool true)) =
      jsonBuilder.addComma [0x7B] ++ [0x22] ++
        (if ([0x6B] : List Nat) = [] then ascii "!EMPTY_KEY"
          else appendEscapedJSONString [] [0x6B]) ++ ascii "\":" ++
        jsonBuilder.writeValue [] (Value.vbool true)) ∧
    (∃ inner,
      jsonBuilder.appendAttr [0x7B]
          (Attr.mk [0x67] (Value.vgroup
            (AttrList.acons (Attr.mk [0x6B] (Value.vbool true)) AttrList.anil))) =
        jsonBuilder.addComma [0x7B] ++ [0x22] ++ appendEscapedJSONString [] [0x67] ++
          ascii "\":\x7b" ++ inner ++ [0x7D]) :=
  ⟨claimC1.2.1 [0x7B] [0x6B] (Value.vbool true) (by intro g h; cases h)
      (by intro h; cases h.2),
   claimC1.2.2.2.1 [0x7B] [0x67] (Attr.mk [0x6B] (Value.vbool true)) AttrList.anil
      (by decide)⟩

end Slog
